import Mathlib

/-!
Verification of the `basic_scanner` processing core (scanandorganize).

This file gives a shallow embedding, in Lean 4, of the pure logic of the
Python modules `rules.py`, `classify.py`, `extract.py`, `suppliers.py`,
`mover.py` and `watcher.py`, and proves (or refutes) the frozen claims
about them.

Modelling conventions, used throughout:
- Python strings are modelled as `String` / `List Char`.  All character
  classification (`\w`, `\s`, `str.lower`, `str.strip`) is embedded for the
  ASCII range, on which it agrees with Python; the Unicode-NFD
  normalisation step of `slugify` is the identity on ASCII and is modelled
  as such (theorems about `slugify` carry an explicit ASCII hypothesis).
- Python floats are modelled as exact rationals (`ℚ`); `round(x, 2)` is
  modelled as rounding the rational to hundredths, which agrees with the
  float computation on every value reachable in this code (all weights are
  multiples of 1/100).
- Filesystem state is modelled explicitly as lists of existing paths, and
  fallible OS operations (`mkdir`, `shutil.move`) as boolean failure
  oracles carrying the exception message `str(e)`.
- The `re` patterns used by `extract.py` are embedded as explicit
  backtracking matchers over `List Char` with Python's leftmost /
  greedy-with-backtracking semantics; unbounded loops are embedded with a
  structural fuel argument large enough for the input.
-/

namespace Scan

/-! ## Basic character and string utilities (ASCII fragment of Python's) -/

/-- Python `str.lower` for the ASCII range. -/
def lowerC (c : Char) : Char :=
  if 'A' ≤ c ∧ c ≤ 'Z' then Char.ofNat (c.toNat + 32) else c

/-- Python `str.lower` on a character list. -/
def lowerL (l : List Char) : List Char := l.map lowerC

/-- `re` whitespace class `\s` (ASCII): space, tab, newline, CR, VT, FF. -/
def isSp (c : Char) : Bool :=
  c == ' ' || c == '\t' || c == '\n' || c == '\r' || c == '\x0b' || c == '\x0c'

/-- `re` word class `\w` (ASCII): letters, digits, underscore. -/
def isWordC (c : Char) : Bool := c.isAlphanum || c == '_'

/-- ASCII digit test (`\d`). -/
def isDig (c : Char) : Bool := c.isDigit

/-- Numeric value of an ASCII digit character. -/
def dv (c : Char) : Nat := c.toNat - 48

/-- `isPrefL pat l` : `pat` is a prefix of `l` (exact characters). -/
def isPrefL : List Char → List Char → Bool
  | [], _ => true
  | _ :: _, [] => false
  | a :: as, b :: bs => a == b && isPrefL as bs

/-- Python's `pat in hay` substring test on character lists. -/
def containsL (hay pat : List Char) : Bool :=
  if isPrefL pat hay then true
  else
    match hay with
    | [] => false
    | _ :: t => containsL t pat

/-- `endsWithL l sfx` : `l` ends with `sfx`. -/
def endsWithL (l sfx : List Char) : Bool := isPrefL sfx.reverse l.reverse

/-- Python `str.strip(chars)` limited to one side: drop leading characters
satisfying `p`. -/
def dropLead (p : Char → Bool) (l : List Char) : List Char := l.dropWhile p

/-- Drop trailing characters satisfying `p`. -/
def dropTrail (p : Char → Bool) (l : List Char) : List Char :=
  (l.reverse.dropWhile p).reverse

/-- Python `str.strip(chars)`: drop the characters from both ends. -/
def stripBoth (p : Char → Bool) (l : List Char) : List Char :=
  dropTrail p (dropLead p l)

/-- Decimal rendering of a natural number, as Python `str(i)` /
f-string formatting produces it (fuel-structural so that it evaluates in
the kernel). -/
def decimalAux : Nat → Nat → List Char
  | 0, _ => []
  | _ + 1, 0 => []
  | fuel + 1, n => decimalAux fuel (n / 10) ++ [Char.ofNat (48 + n % 10)]

/-- Decimal rendering of `n` (Python `str(n)` for a nonnegative int). -/
def decimalL (n : Nat) : List Char :=
  if n = 0 then ['0'] else decimalAux (n + 1) n

/-- Reading a digit list back as a number (used only to prove that decimal
rendering is injective). -/
def numVal (l : List Char) : Nat := l.foldl (fun a c => 10 * a + dv c) 0

theorem numVal_append (a b : List Char) :
    numVal (a ++ b) = b.foldl (fun x c => 10 * x + dv c) (numVal a) := by
  simp [numVal, List.foldl_append]

theorem dv_ofNat_digit (d : Nat) (h : d < 10) :
    dv (Char.ofNat (48 + d)) = d := by
  interval_cases d <;> decide

theorem numVal_decimalAux (fuel n : Nat) (h : n ≤ fuel) :
    numVal (decimalAux fuel n) = n := by
  induction fuel generalizing n with
  | zero =>
    have : n = 0 := by omega
    subst this; simp [decimalAux, numVal]
  | succ f ih =>
    rcases Nat.eq_zero_or_pos n with h0 | h0
    · subst h0; simp [decimalAux, numVal]
    · have hfuel : n / 10 ≤ f := by
        have : n / 10 < n := Nat.div_lt_self h0 (by norm_num)
        omega
      have hrec := ih (n / 10) hfuel
      have hn : decimalAux (f + 1) n = decimalAux f (n / 10) ++ [Char.ofNat (48 + n % 10)] := by
        match f, n, h0 with
        | f, n + 1, _ => rfl
      rw [hn, numVal_append]
      simp only [List.foldl_cons, List.foldl_nil]
      rw [hrec, dv_ofNat_digit _ (Nat.mod_lt _ (by norm_num))]
      omega

theorem numVal_decimalL (n : Nat) : numVal (decimalL n) = n := by
  by_cases h : n = 0
  · subst h; rfl
  · simp only [decimalL, if_neg h]
    exact numVal_decimalAux (n + 1) n (by omega)

theorem decimalL_injective : Function.Injective decimalL := by
  intro a b h
  have := numVal_decimalL a
  rw [h, numVal_decimalL] at this
  omega

/-! ## `rules.slugify`

Embedding of `rules.py::slugify` (ASCII fragment).  On ASCII input the
`unicodedata.normalize("NFD", ·)` pass is the identity and no character has
category `Mn`, so the accent-stripping stage disappears; the remaining
stages are embedded exactly:
`re.sub(r"[^\w\s\-]", " ", ·)`, then `re.sub(r"[-\s]+", "_", ·)`, then
`str.strip("_")`, then truncation `[:max_length]` (skipped when
`max_length` is falsy, i.e. `0`). -/

/-- Characters matched by the run class `[-\s]` of the second `re.sub`. -/
def isRunChar (c : Char) : Bool := isSp c || c == '-'

/-- `re.sub(r"[^\w\s\-]", " ", ·)`: any character that is not a word
character, whitespace or a dash becomes a space. -/
def replaceNonWord (l : List Char) : List Char :=
  l.map fun c => if isWordC c || isSp c || c == '-' then c else ' '

/-- `re.sub(r"[-\s]+", "_", ·)`: every maximal run of whitespace/dash
characters becomes a single underscore. -/
def collapseRuns : List Char → List Char
  | [] => []
  | [c] => if isRunChar c then ['_'] else [c]
  | c :: d :: rest =>
    if isRunChar c then
      if isRunChar d then collapseRuns (d :: rest)
      else '_' :: collapseRuns (d :: rest)
    else c :: collapseRuns (d :: rest)

/-- The slug pipeline before truncation. -/
def slugifyCore (l : List Char) : List Char :=
  stripBoth (· == '_') (collapseRuns (replaceNonWord l))

/-- `rules.py::slugify`.  `maxLength = 0` is Python-falsy: no truncation. -/
def slugify (value : String) (maxLength : Nat := 80) : String :=
  if value = "" then ""
  else
    ⟨if maxLength ≠ 0 then (slugifyCore value.data).take maxLength
     else slugifyCore value.data⟩

/-- A string is in the faithfully modelled (ASCII) fragment. -/
def asciiStr (s : String) : Prop := ∀ c ∈ s.data, c.toNat < 128

instance (s : String) : Decidable (asciiStr s) := by
  unfold asciiStr
  infer_instance

/-! Structural facts about the slug pipeline, used for the idempotence
analysis: the characters surviving the pipeline are word characters, and
the result never starts with an underscore. -/

theorem isWordC_not_isRunChar {c : Char} (h : isWordC c = true) :
    isRunChar c = false := by
  by_contra hr
  rw [Bool.not_eq_false] at hr
  have hcase : c = ' ' ∨ c = '\t' ∨ c = '\n' ∨ c = '\r' ∨ c = '\x0b' ∨
      c = '\x0c' ∨ c = '-' := by
    simpa [isRunChar, isSp, or_assoc] using hr
  rcases hcase with rfl | rfl | rfl | rfl | rfl | rfl | rfl <;>
    exact absurd h (by decide)

/-- Every character of `collapseRuns l` is either the inserted underscore or
a non-run character of `l`. -/
theorem mem_collapseRuns (l : List Char) :
    ∀ c ∈ collapseRuns l, c = '_' ∨ (c ∈ l ∧ isRunChar c = false) := by
  induction l with
  | nil => intro c hc; simp [collapseRuns] at hc
  | cons a t ih =>
    cases t with
    | nil =>
      intro c hc
      by_cases ha : isRunChar a = true
      · rw [show collapseRuns [a] = if isRunChar a then ['_'] else [a] from rfl,
          if_pos ha] at hc
        simp at hc; exact Or.inl hc
      · rw [show collapseRuns [a] = if isRunChar a then ['_'] else [a] from rfl,
          if_neg ha] at hc
        simp at hc
        exact Or.inr ⟨by simp [hc], by subst hc; simpa using ha⟩
    | cons b t' =>
      intro c hc
      by_cases ha : isRunChar a = true
      · by_cases hb : isRunChar b = true
        · rw [show collapseRuns (a :: b :: t') =
              if isRunChar a then
                if isRunChar b then collapseRuns (b :: t')
                else '_' :: collapseRuns (b :: t')
              else a :: collapseRuns (b :: t') from rfl,
            if_pos ha, if_pos hb] at hc
          rcases ih c hc with h | ⟨hm, hr⟩
          · exact Or.inl h
          · exact Or.inr ⟨List.mem_cons_of_mem _ hm, hr⟩
        · rw [show collapseRuns (a :: b :: t') =
              if isRunChar a then
                if isRunChar b then collapseRuns (b :: t')
                else '_' :: collapseRuns (b :: t')
              else a :: collapseRuns (b :: t') from rfl,
            if_pos ha, if_neg hb] at hc
          rcases List.mem_cons.mp hc with rfl | hc'
          · exact Or.inl rfl
          · rcases ih c hc' with h | ⟨hm, hr⟩
            · exact Or.inl h
            · exact Or.inr ⟨List.mem_cons_of_mem _ hm, hr⟩
      · rw [show collapseRuns (a :: b :: t') =
            if isRunChar a then
              if isRunChar b then collapseRuns (b :: t')
              else '_' :: collapseRuns (b :: t')
            else a :: collapseRuns (b :: t') from rfl,
          if_neg ha] at hc
        rcases List.mem_cons.mp hc with rfl | hc'
        · exact Or.inr ⟨List.mem_cons_self _ _, by simpa using ha⟩
        · rcases ih c hc' with h | ⟨hm, hr⟩
          · exact Or.inl h
          · exact Or.inr ⟨List.mem_cons_of_mem _ hm, hr⟩

theorem stripBoth_subset (p : Char → Bool) (l : List Char) :
    stripBoth p l ⊆ l := by
  intro x hx
  simp only [stripBoth, dropTrail, dropLead] at hx
  have h1 : x ∈ (List.dropWhile p l).reverse.dropWhile p := by
    simpa using hx
  have h2 := (List.dropWhile_sublist (p := p)
    (l := (List.dropWhile p l).reverse)).subset h1
  rw [List.mem_reverse] at h2
  exact (List.dropWhile_sublist (p := p) (l := l)).subset h2

theorem mem_slugifyCore_word (l : List Char) :
    ∀ c ∈ slugifyCore l, isWordC c = true := by
  intro c hc
  have hmem : c ∈ collapseRuns (replaceNonWord l) :=
    stripBoth_subset _ _ hc
  rcases mem_collapseRuns _ c hmem with rfl | ⟨hm, hr⟩
  · decide
  · simp only [replaceNonWord, List.mem_map] at hm
    obtain ⟨y, _, hy⟩ := hm
    by_cases h : (isWordC y || isSp y || y == '-') = true
    · rw [if_pos h] at hy
      subst hy
      simp only [Bool.or_eq_true, beq_iff_eq] at h
      rcases h with (h | h) | h
      · exact h
      · exact absurd hr (by simp [isRunChar, h])
      · exact absurd hr (by simp [isRunChar, h])
    · rw [if_neg h] at hy
      subst hy
      exact absurd hr (by decide)

theorem replaceNonWord_id (l : List Char) (h : ∀ c ∈ l, isWordC c = true) :
    replaceNonWord l = l := by
  unfold replaceNonWord
  have : ∀ c ∈ l, (fun c => if isWordC c || isSp c || c == '-' then c else ' ') c = c := by
    intro c hc
    simp [h c hc]
  rw [List.map_congr_left this, List.map_id' l]

theorem collapseRuns_id (l : List Char) (h : ∀ c ∈ l, isRunChar c = false) :
    collapseRuns l = l := by
  induction l with
  | nil => rfl
  | cons a t ih =>
    have ha : isRunChar a = false := h a (by simp)
    have hrest : ∀ c ∈ t, isRunChar c = false := fun c hc => h c (by simp [hc])
    cases t with
    | nil =>
      rw [show collapseRuns [a] = if isRunChar a then ['_'] else [a] from rfl,
        if_neg (by simp [ha])]
    | cons b t' =>
      rw [show collapseRuns (a :: b :: t') =
          if isRunChar a then
            if isRunChar b then collapseRuns (b :: t')
            else '_' :: collapseRuns (b :: t')
          else a :: collapseRuns (b :: t') from rfl,
        if_neg (by simp [ha]), ih hrest]

theorem head?_dropWhile_not_sat (p : Char → Bool) (l : List Char) (c : Char)
    (h : (l.dropWhile p).head? = some c) : p c = false := by
  induction l with
  | nil => simp at h
  | cons a t ih =>
    by_cases ha : p a = true
    · rw [List.dropWhile_cons, if_pos ha] at h
      exact ih h
    · rw [List.dropWhile_cons, if_neg ha] at h
      simp at h
      subst h
      simpa using ha

theorem dropLead_id (p : Char → Bool) (l : List Char)
    (h : ∀ c, l.head? = some c → p c = false) : dropLead p l = l := by
  cases l with
  | nil => rfl
  | cons a t =>
    have := h a rfl
    simp [dropLead, List.dropWhile_cons, this]

theorem dropTrail_id (p : Char → Bool) (l : List Char)
    (h : ∀ c, l.getLast? = some c → p c = false) : dropTrail p l = l := by
  unfold dropTrail
  have hd : List.dropWhile p l.reverse = l.reverse := by
    have := dropLead_id p l.reverse (fun c hc => h c (by
      rw [List.head?_reverse] at hc; exact hc))
    simpa [dropLead] using this
  rw [hd, List.reverse_reverse]

theorem head?_dropTrail (p : Char → Bool) (m : List Char) (c : Char)
    (h : (dropTrail p m).head? = some c) : m.head? = some c := by
  obtain ⟨t, ht⟩ := List.dropWhile_suffix (l := m.reverse) p
  have hm : m = (m.reverse.dropWhile p).reverse ++ t.reverse := by
    have h2 := congrArg List.reverse ht
    rw [List.reverse_append, List.reverse_reverse] at h2
    exact h2.symm
  unfold dropTrail at h
  cases hx : (m.reverse.dropWhile p).reverse with
  | nil => rw [hx] at h; simp at h
  | cons y ys =>
    rw [hx] at h
    simp at h
    subst h
    rw [hm, hx]
    rfl

theorem getLast?_dropTrail (p : Char → Bool) (m : List Char) (c : Char)
    (h : (dropTrail p m).getLast? = some c) : p c = false := by
  unfold dropTrail at h
  rw [List.getLast?_reverse] at h
  exact head?_dropWhile_not_sat p m.reverse c h

theorem head?_take_pos (l : List Char) (n : Nat) (hn : 1 ≤ n) (c : Char)
    (h : l.head? = some c) : (l.take n).head? = some c := by
  cases l <;> cases n <;> simp_all

/-- The slug core never starts with an underscore. -/
theorem slugifyCore_head (l : List Char) (c : Char)
    (h : (slugifyCore l).head? = some c) : c ≠ '_' := by
  intro hc
  subst hc
  have h1 := head?_dropTrail (· == '_') _ _ h
  have h2 := head?_dropWhile_not_sat (· == '_') _ _ h1
  simp at h2

/-- The slug core never ends with an underscore. -/
theorem slugifyCore_getLast (l : List Char) (c : Char)
    (h : (slugifyCore l).getLast? = some c) : c ≠ '_' := by
  intro hc
  subst hc
  have := getLast?_dropTrail (· == '_') _ _ h
  simp at this

/-- Applying the slug core to its own (possibly truncated) output is the
identity, provided the output does not end with an underscore. -/
theorem slugifyCore_output_fixed (out : List Char)
    (hword : ∀ c ∈ out, isWordC c = true)
    (hhead : ∀ c, out.head? = some c → c ≠ '_')
    (hlast : ∀ c, out.getLast? = some c → c ≠ '_') :
    slugifyCore out = out := by
  unfold slugifyCore
  rw [replaceNonWord_id out hword]
  rw [collapseRuns_id out (fun c hc => isWordC_not_isRunChar (hword c hc))]
  unfold stripBoth
  rw [dropLead_id _ _ (fun c hc => by
    have := hhead c hc; simpa using this)]
  rw [dropTrail_id _ _ (fun c hc => by
    have := hlast c hc; simpa using this)]

theorem head?_of_take (l : List Char) (n : Nat) (c : Char)
    (h : (l.take n).head? = some c) : l.head? = some c := by
  cases l <;> cases n <;> simp_all

theorem slugify_data (s : String) (n : Nat) (hs : s ≠ "") :
    (slugify s n).data =
      if n ≠ 0 then (slugifyCore s.data).take n else slugifyCore s.data := by
  unfold slugify
  rw [if_neg hs]

theorem mk_ne_empty (out : List Char) (h : out ≠ []) : (⟨out⟩ : String) ≠ "" :=
  fun hmk => h (congrArg String.data hmk)

/-- C7 (counterexample).  The claim "slugification is idempotent for every
input string and every maximum length" is false on the code: truncation can
cut immediately after an underscore, and the second application strips that
trailing underscore.  `slugify("ab cd", 3)` is `"ab_"` but applying
`slugify` again (with the same maximum length) gives `"ab"`. -/
theorem claim_c7_counterexample :
    slugify (slugify "ab cd" 3) 3 ≠ slugify "ab cd" 3 ∧
      slugify "ab cd" 3 = "ab_" ∧ slugify (slugify "ab cd" 3) 3 = "ab" := by
  refine ⟨?_, ?_, ?_⟩ <;> decide

/-- C7 (amended).  Slugification is idempotent whenever its result does not
end with an underscore — in particular whenever the truncation limit is 0
(no truncation) or the untruncated slug is not cut, since the untruncated
slug never ends with an underscore.  (Stated over the ASCII fragment on
which the embedding agrees with the Python code.) -/
theorem claim_c7 (s : String) (n : Nat) (hascii : asciiStr s)
    (hnotail : (slugify s n).data.getLast? ≠ some '_') :
    slugify (slugify s n) n = slugify s n := by
  by_cases hs : s = ""
  · subst hs
    rfl
  · have hdata := slugify_data s n hs
    set out := (slugify s n).data with hout
    by_cases hempty : out = []
    · have hze : slugify s n = "" := by
        rw [show slugify s n = (⟨out⟩ : String) from rfl, hempty]
      rw [hze]
      simp [slugify]
    · -- characters of the output are word characters
      have hword : ∀ c ∈ out, isWordC c = true := by
        intro c hc
        rw [hdata] at hc
        by_cases hn : n ≠ 0
        · rw [if_pos hn] at hc
          exact mem_slugifyCore_word _ c (List.take_subset _ _ hc)
        · rw [if_neg hn] at hc
          exact mem_slugifyCore_word _ c hc
      have hhead : ∀ c, out.head? = some c → c ≠ '_' := by
        intro c hc
        rw [hdata] at hc
        by_cases hn : n ≠ 0
        · rw [if_pos hn] at hc
          exact slugifyCore_head _ _ (head?_of_take _ _ _ hc)
        · rw [if_neg hn] at hc
          exact slugifyCore_head _ _ hc
      have hfix : slugifyCore out = out :=
        slugifyCore_output_fixed out hword hhead
          (fun c hc he => hnotail (he ▸ hc))
      have hlen : n ≠ 0 → out.length ≤ n := by
        intro hn
        rw [hdata, if_pos hn, List.length_take]
        omega
      have hmkne : (⟨out⟩ : String) ≠ "" := mk_ne_empty out hempty
      have : slugify s n = ⟨out⟩ := rfl
      rw [this]
      unfold slugify
      rw [if_neg hmkne]
      by_cases hn : n ≠ 0
      · rw [if_pos hn]
        show (⟨(slugifyCore out).take n⟩ : String) = ⟨out⟩
        rw [hfix, List.take_of_length_le (hlen hn)]
      · rw [if_neg hn]
        show (⟨slugifyCore out⟩ : String) = ⟨out⟩
        rw [hfix]

/-- C7 witness: the amended idempotence theorem applied at a concrete
input whose slug is not cut by the truncation. -/
theorem claim_c7_witness :
    asciiStr "Electricite  de -- France" ∧
      slugify (slugify "Electricite  de -- France" 80) 80 =
        slugify "Electricite  de -- France" 80 :=
  ⟨by decide, claim_c7 "Electricite  de -- France" 80 (by decide) (by decide)⟩

/-! ## Data model (`models.py`)

`datetime.date` is modelled as a year/month/day record; `date(y, m, d)`
raises `ValueError` exactly outside the proleptic-Gregorian ranges checked
in `mkDate`, which is modelled by returning `none`.  Python floats are
modelled as exact rationals. -/

structure PyDate where
  year : Nat
  month : Nat
  day : Nat
deriving DecidableEq

def isLeap (y : Nat) : Bool := (y % 4 == 0 && y % 100 != 0) || y % 400 == 0

def daysInMonth (y m : Nat) : Nat :=
  if m == 2 then (if isLeap y then 29 else 28)
  else if m == 4 || m == 6 || m == 9 || m == 11 then 30
  else 31

/-- `datetime.date(y, m, d)`: `none` models a `ValueError`. -/
def mkDate (y m d : Nat) : Option PyDate :=
  if 1 ≤ y ∧ y ≤ 9999 ∧ 1 ≤ m ∧ m ≤ 12 ∧ 1 ≤ d ∧ d ≤ daysInMonth y m then
    some ⟨y, m, d⟩
  else none

/-- Comparison `a <= b` on dates (lexicographic on year, month, day). -/
def dateLE (a b : PyDate) : Bool :=
  if a.year < b.year then true
  else if b.year < a.year then false
  else if a.month < b.month then true
  else if b.month < a.month then false
  else decide (a.day ≤ b.day)

/-- `models.py::ExtractedData` (the `to_dict` serialisation is not needed
by any claim). -/
structure ExtractedData where
  type_document : String
  date_doc : Option PyDate := none
  montant_ttc : Option ℚ := none
  numero_facture : Option String := none
  fournisseur : Option String := none
  fournisseur_raw : Option String := none
  texte_complet : String := ""
  confidence : ℚ := 0
deriving DecidableEq

/-- Python truthiness of an optional string (`if x:`): false for `None`
and for the empty string. -/
def truthy : Option String → Bool
  | some s => s != ""
  | none => false

/-! ## `classify.py::compute_confidence` (claim C3) -/

/-- The tuple of recognised document types tested by `compute_confidence`. -/
def recognizedTypes : List String :=
  ["facture_fournisseur", "avoir", "devis", "courrier", "plan", "impots"]

/-- Python `round(x, 2)` on the rationals reachable here.  (Python uses
round-half-even on binary floats; every score reachable in
`compute_confidence` is an exact multiple of 1/100, where both notions of
rounding are the identity.) -/
def roundTo2 (q : ℚ) : ℚ := (round (q * 100) : ℤ) / 100

/-- `classify.py::compute_confidence`, with the sequential `score +=`
updates embedded literally. -/
def compute_confidence (e : ExtractedData) : ℚ :=
  let score : ℚ := 0
  let score := if truthy e.fournisseur then score + 0.35
    else if truthy e.fournisseur_raw then score + 0.1
    else score
  let score := if e.date_doc.isSome then score + 0.25 else score
  let score := if recognizedTypes.contains e.type_document then score + 0.2
    else score
  let score := if truthy e.numero_facture then score + 0.1 else score
  let score := if e.montant_ttc.isSome then score + 0.1 else score
  min 1 (roundTo2 score)

/-- `compute_confidence` as a function of the six boolean signals. -/
def confFlags (b1 b2 b3 b4 b5 b6 : Bool) : ℚ :=
  let score : ℚ := 0
  let score := if b1 then score + 0.35 else if b2 then score + 0.1 else score
  let score := if b3 then score + 0.25 else score
  let score := if b4 then score + 0.2 else score
  let score := if b5 then score + 0.1 else score
  let score := if b6 then score + 0.1 else score
  min 1 (roundTo2 score)

/-- The claim's description: a plain capped sum of independent,
mutually-exclusive supplier weights and the other four weights (no
rounding: the claim asserts the rounded value equals this sum). -/
def specFlags (b1 b2 b3 b4 b5 b6 : Bool) : ℚ :=
  min 1 ((if b1 then 0.35 else 0) + (if !b1 && b2 then 0.1 else 0) +
    (if b3 then 0.25 else 0) + (if b4 then 0.2 else 0) +
    (if b5 then 0.1 else 0) + (if b6 then 0.1 else 0))

/-- The claim's confidence formula evaluated on an `ExtractedData`. -/
def specConfidence (e : ExtractedData) : ℚ :=
  specFlags (truthy e.fournisseur) (truthy e.fournisseur_raw)
    e.date_doc.isSome (recognizedTypes.contains e.type_document)
    (truthy e.numero_facture) e.montant_ttc.isSome

theorem compute_confidence_flags (e : ExtractedData) :
    compute_confidence e =
      confFlags (truthy e.fournisseur) (truthy e.fournisseur_raw)
        e.date_doc.isSome (recognizedTypes.contains e.type_document)
        (truthy e.numero_facture) e.montant_ttc.isSome := rfl

/-- Weight contributed by the two mutually exclusive supplier signals. -/
def supW (b1 b2 : Bool) : ℚ := if b1 then 0.35 else if b2 then 0.1 else 0

/-- Weight `w` contributed when signal `b` is present. -/
def iteW (b : Bool) (w : ℚ) : ℚ := if b then w else 0

/-- The raw (uncapped, unrounded) score as a sum of independent weights. -/
def sumFlags (b1 b2 b3 b4 b5 b6 : Bool) : ℚ :=
  supW b1 b2 + iteW b3 0.25 + iteW b4 0.2 + iteW b5 0.1 + iteW b6 0.1

/-- Integer value of `100 * sumFlags`. -/
def centsF (b1 b2 b3 b4 b5 b6 : Bool) : ℤ :=
  (if b1 then 35 else if b2 then 10 else 0) + (if b3 then 25 else 0) +
    (if b4 then 20 else 0) + (if b5 then 10 else 0) + (if b6 then 10 else 0)

theorem roundTo2_of_cents (q : ℚ) (n : ℤ) (h : q * 100 = (n : ℚ)) :
    roundTo2 q = q := by
  unfold roundTo2
  rw [h, round_intCast]
  have hq : q = (n : ℚ) / 100 := by
    rw [← h]; ring
  rw [hq]

theorem sumFlags_cents (b1 b2 b3 b4 b5 b6 : Bool) :
    sumFlags b1 b2 b3 b4 b5 b6 * 100 = ((centsF b1 b2 b3 b4 b5 b6 : ℤ) : ℚ) := by
  unfold sumFlags supW iteW centsF
  rcases b1 <;> rcases b2 <;> rcases b3 <;> rcases b4 <;> rcases b5 <;>
    rcases b6 <;> norm_num

theorem roundTo2_sumFlags (b1 b2 b3 b4 b5 b6 : Bool) :
    roundTo2 (sumFlags b1 b2 b3 b4 b5 b6) = sumFlags b1 b2 b3 b4 b5 b6 :=
  roundTo2_of_cents _ _ (sumFlags_cents b1 b2 b3 b4 b5 b6)

/-- The sequential `score +=` accumulation of `compute_confidence`, before
the final cap and rounding. -/
def seqScore (b1 b2 b3 b4 b5 b6 : Bool) : ℚ :=
  let score : ℚ := 0
  let score := if b1 then score + 0.35 else if b2 then score + 0.1 else score
  let score := if b3 then score + 0.25 else score
  let score := if b4 then score + 0.2 else score
  let score := if b5 then score + 0.1 else score
  let score := if b6 then score + 0.1 else score
  score

theorem seqScore_eq_sum (b1 b2 b3 b4 b5 b6 : Bool) :
    seqScore b1 b2 b3 b4 b5 b6 = sumFlags b1 b2 b3 b4 b5 b6 := by
  unfold seqScore sumFlags supW iteW
  rcases b1 <;> rcases b2 <;> rcases b3 <;> rcases b4 <;> rcases b5 <;>
    rcases b6 <;> norm_num

theorem confFlags_min_sum (b1 b2 b3 b4 b5 b6 : Bool) :
    confFlags b1 b2 b3 b4 b5 b6 = min 1 (sumFlags b1 b2 b3 b4 b5 b6) := by
  rw [show confFlags b1 b2 b3 b4 b5 b6 =
      min 1 (roundTo2 (seqScore b1 b2 b3 b4 b5 b6)) from rfl,
    seqScore_eq_sum, roundTo2_sumFlags]

theorem supW_eq_spec (b1 b2 : Bool) :
    (if b1 then (0.35 : ℚ) else 0) + (if !b1 && b2 then (0.1 : ℚ) else 0) =
      supW b1 b2 := by
  rcases b1 <;> rcases b2 <;> norm_num [supW]

theorem specFlags_min_sum (b1 b2 b3 b4 b5 b6 : Bool) :
    specFlags b1 b2 b3 b4 b5 b6 = min 1 (sumFlags b1 b2 b3 b4 b5 b6) := by
  unfold specFlags sumFlags iteW
  rw [supW_eq_spec]

theorem confFlags_eq_specFlags (b1 b2 b3 b4 b5 b6 : Bool) :
    confFlags b1 b2 b3 b4 b5 b6 = specFlags b1 b2 b3 b4 b5 b6 := by
  rw [confFlags_min_sum, specFlags_min_sum]

theorem supW_nonneg (b1 b2 : Bool) : 0 ≤ supW b1 b2 := by
  rcases b1 <;> rcases b2 <;> norm_num [supW]

theorem iteW_nonneg (b : Bool) (w : ℚ) (hw : 0 ≤ w) : 0 ≤ iteW b w := by
  unfold iteW
  split
  · exact hw
  · exact le_refl 0

theorem sumFlags_nonneg (b1 b2 b3 b4 b5 b6 : Bool) :
    0 ≤ sumFlags b1 b2 b3 b4 b5 b6 := by
  unfold sumFlags
  have h1 := supW_nonneg b1 b2
  have h3 := iteW_nonneg b3 (0.25 : ℚ) (by norm_num)
  have h4 := iteW_nonneg b4 (0.2 : ℚ) (by norm_num)
  have h5 := iteW_nonneg b5 (0.1 : ℚ) (by norm_num)
  have h6 := iteW_nonneg b6 (0.1 : ℚ) (by norm_num)
  linarith

theorem confFlags_bounds (b1 b2 b3 b4 b5 b6 : Bool) :
    0 ≤ confFlags b1 b2 b3 b4 b5 b6 ∧ confFlags b1 b2 b3 b4 b5 b6 ≤ 1 := by
  rw [confFlags_min_sum]
  exact ⟨le_min (by norm_num) (sumFlags_nonneg _ _ _ _ _ _), min_le_left _ _⟩

theorem supW_mono (a1 a2 b1 b2 : Bool) (h1 : a1 = true → b1 = true)
    (h2 : a1 = true ∨ a2 = true → b1 = true ∨ b2 = true) :
    supW a1 a2 ≤ supW b1 b2 := by
  rcases a1 <;> rcases a2 <;> rcases b1 <;> rcases b2 <;>
    simp_all [supW] <;> norm_num

theorem iteW_mono (a b : Bool) (w : ℚ) (hw : 0 ≤ w) (h : a = true → b = true) :
    iteW a w ≤ iteW b w := by
  rcases a <;> rcases b <;> simp_all [iteW]

theorem sumFlags_mono (a1 a2 a3 a4 a5 a6 b1 b2 b3 b4 b5 b6 : Bool)
    (h1 : a1 = true → b1 = true)
    (h2 : a1 = true ∨ a2 = true → b1 = true ∨ b2 = true)
    (h3 : a3 = true → b3 = true) (h4 : a4 = true → b4 = true)
    (h5 : a5 = true → b5 = true) (h6 : a6 = true → b6 = true) :
    sumFlags a1 a2 a3 a4 a5 a6 ≤ sumFlags b1 b2 b3 b4 b5 b6 := by
  unfold sumFlags
  have g1 := supW_mono a1 a2 b1 b2 h1 h2
  have g3 := iteW_mono a3 b3 (0.25 : ℚ) (by norm_num) h3
  have g4 := iteW_mono a4 b4 (0.2 : ℚ) (by norm_num) h4
  have g5 := iteW_mono a5 b5 (0.1 : ℚ) (by norm_num) h5
  have g6 := iteW_mono a6 b6 (0.1 : ℚ) (by norm_num) h6
  linarith

theorem confFlags_mono (a1 a2 a3 a4 a5 a6 b1 b2 b3 b4 b5 b6 : Bool)
    (h1 : a1 = true → b1 = true)
    (h2 : a1 = true ∨ a2 = true → b1 = true ∨ b2 = true)
    (h3 : a3 = true → b3 = true) (h4 : a4 = true → b4 = true)
    (h5 : a5 = true → b5 = true) (h6 : a6 = true → b6 = true) :
    confFlags a1 a2 a3 a4 a5 a6 ≤ confFlags b1 b2 b3 b4 b5 b6 := by
  rw [confFlags_min_sum, confFlags_min_sum]
  exact min_le_min (le_refl 1)
    (sumFlags_mono a1 a2 a3 a4 a5 a6 b1 b2 b3 b4 b5 b6 h1 h2 h3 h4 h5 h6)

/-- C3.  `compute_confidence` returns the capped-and-rounded sum of the
independent signal weights (0.35 canonical supplier, exclusive with 0.10
raw-only supplier; 0.25 date; 0.20 recognised type; 0.10 invoice number;
0.10 amount), the rounding being the identity on every reachable score;
the result is always in `[0, 1]`; and it is monotone non-decreasing as
more positive signals are present. -/
theorem claim_c3 (e : ExtractedData) :
    compute_confidence e = specConfidence e ∧
      0 ≤ compute_confidence e ∧ compute_confidence e ≤ 1 ∧
      (∀ e' : ExtractedData,
        (truthy e.fournisseur = true → truthy e'.fournisseur = true) →
        (truthy e.fournisseur = true ∨ truthy e.fournisseur_raw = true →
          truthy e'.fournisseur = true ∨ truthy e'.fournisseur_raw = true) →
        (e.date_doc.isSome = true → e'.date_doc.isSome = true) →
        (recognizedTypes.contains e.type_document = true →
          recognizedTypes.contains e'.type_document = true) →
        (truthy e.numero_facture = true → truthy e'.numero_facture = true) →
        (e.montant_ttc.isSome = true → e'.montant_ttc.isSome = true) →
        compute_confidence e ≤ compute_confidence e') := by
  refine ⟨?_, ?_, ?_, ?_⟩
  · rw [compute_confidence_flags]
    exact confFlags_eq_specFlags _ _ _ _ _ _
  · rw [compute_confidence_flags]
    exact (confFlags_bounds _ _ _ _ _ _).1
  · rw [compute_confidence_flags]
    exact (confFlags_bounds _ _ _ _ _ _).2
  · intro e' h1 h2 h3 h4 h5 h6
    rw [compute_confidence_flags, compute_confidence_flags]
    exact confFlags_mono _ _ _ _ _ _ _ _ _ _ _ _ h1 h2 h3 h4 h5 h6

/-- A document with only raw supplier text. -/
def exWeak : ExtractedData :=
  { type_document := "inconnu", fournisseur_raw := some "EDF SA" }

/-- The same document with every signal present. -/
def exStrong : ExtractedData :=
  { type_document := "facture_fournisseur", date_doc := some ⟨2024, 3, 15⟩,
    montant_ttc := some 1500, numero_facture := some "FAC-2024-042",
    fournisseur := some "EDF", fournisseur_raw := some "EDF SA" }

/-- C3 witness: the monotonicity part of `claim_c3` applied to a concrete
pair of documents, every hypothesis discharged by computation. -/
theorem claim_c3_witness :
    (truthy exWeak.fournisseur = true → truthy exStrong.fournisseur = true) ∧
      compute_confidence exWeak ≤ compute_confidence exStrong :=
  ⟨by decide, (claim_c3 exWeak).2.2.2 exStrong (by decide) (by decide)
    (by decide) (by decide) (by decide) (by decide)⟩

/-! ## `extract.py::extract_type_document` (claim C5) -/

def KEYWORDS_FACTURE : List String := ["facture", "invoice", "rechnung"]

def KEYWORDS_AVOIR : List String :=
  ["avoir", "credit note", "crédit", "remboursement", "refund"]

def KEYWORDS_DEVIS : List String :=
  ["devis", "quote", "estimation", "proposition commerciale", "proposal"]

def KEYWORDS_COURRIER : List String :=
  ["courrier", "lettre", "letter", "mail", "correspondance"]

def KEYWORDS_PLAN : List String :=
  ["plan", "schéma", "schema", "drawing", "plan de", "plan d\x27"]

def KEYWORDS_IMPOTS : List String :=
  ["impôts", "impots", "avis d\x27imposition", "avis d\x27impôt", "dgfip",
    "urssaf", "caf", "taxe", "fiscal", "revenus"]

/-- `any(k in lower for k in kws)`: the loop `for k in kws: if k in lower`. -/
def hasKw (kws : List String) (lower : List Char) : Bool :=
  kws.any fun k => containsL lower k.data

/-- `extract.py::extract_type_document`: a fixed keyword ladder over the
lower-cased text, first match wins, `"inconnu"` otherwise. -/
def extract_type_document (texte : String) : String :=
  let lower := lowerL texte.data
  if hasKw KEYWORDS_AVOIR lower then "avoir"
  else if hasKw KEYWORDS_FACTURE lower then "facture_fournisseur"
  else if hasKw KEYWORDS_DEVIS lower then "devis"
  else if hasKw KEYWORDS_COURRIER lower then "courrier"
  else if hasKw KEYWORDS_PLAN lower then "plan"
  else if hasKw KEYWORDS_IMPOTS lower then "impots"
  else "inconnu"

/-- The ladder as the specification states it: an ordered priority list
(credit note, invoice, quote, correspondence, drawing/plan, tax). -/
def typeLadder : List (List String × String) :=
  [(KEYWORDS_AVOIR, "avoir"), (KEYWORDS_FACTURE, "facture_fournisseur"),
    (KEYWORDS_DEVIS, "devis"), (KEYWORDS_COURRIER, "courrier"),
    (KEYWORDS_PLAN, "plan"), (KEYWORDS_IMPOTS, "impots")]

/-- Specification-side document type: first rung of the priority ladder
with a case-insensitive substring hit, else `"inconnu"`. -/
def specTypeDocument (texte : String) : String :=
  match typeLadder.find? (fun rung => hasKw rung.1 (lowerL texte.data)) with
  | some rung => rung.2
  | none => "inconnu"

/-- C5.  Document-type extraction is exactly the case-insensitive
keyword-priority ladder (credit note, then invoice, quote, correspondence,
drawing/plan, tax; first match wins; no match gives `"inconnu"`), and any
text containing both credit-note and invoice vocabulary resolves to
`"avoir"`. -/
theorem claim_c5 (t : String) :
    extract_type_document t = specTypeDocument t ∧
      (hasKw KEYWORDS_AVOIR (lowerL t.data) = true →
        hasKw KEYWORDS_FACTURE (lowerL t.data) = true →
        extract_type_document t = "avoir") := by
  constructor
  · by_cases h1 : hasKw KEYWORDS_AVOIR (lowerL t.data) = true
    · simp [extract_type_document, specTypeDocument, typeLadder, h1]
    · by_cases h2 : hasKw KEYWORDS_FACTURE (lowerL t.data) = true
      · simp [extract_type_document, specTypeDocument, typeLadder, h1, h2]
      · by_cases h3 : hasKw KEYWORDS_DEVIS (lowerL t.data) = true
        · simp [extract_type_document, specTypeDocument, typeLadder, h1, h2, h3]
        · by_cases h4 : hasKw KEYWORDS_COURRIER (lowerL t.data) = true
          · simp [extract_type_document, specTypeDocument, typeLadder,
              h1, h2, h3, h4]
          · by_cases h5 : hasKw KEYWORDS_PLAN (lowerL t.data) = true
            · simp [extract_type_document, specTypeDocument, typeLadder,
                h1, h2, h3, h4, h5]
            · by_cases h6 : hasKw KEYWORDS_IMPOTS (lowerL t.data) = true
              · simp [extract_type_document, specTypeDocument, typeLadder,
                  h1, h2, h3, h4, h5, h6]
              · simp [extract_type_document, specTypeDocument, typeLadder,
                  h1, h2, h3, h4, h5, h6]
  · intro ha _
    simp [extract_type_document, ha]

/-- C5 witness: a text with both credit-note and invoice vocabulary
classifies as `"avoir"`. -/
theorem claim_c5_witness :
    hasKw KEYWORDS_AVOIR (lowerL "Avoir sur Facture 42".data) = true ∧
      extract_type_document "Avoir sur Facture 42" = "avoir" :=
  ⟨by decide, (claim_c5 "Avoir sur Facture 42").2 (by decide) (by decide)⟩

/-! ## Backtracking matcher states for the `re` patterns of `extract.py`

A matcher position is the pair of the previously consumed character (for
the zero-width `\b` assertion) and the remaining input.  Alternation and
greedy repetition are embedded as candidate lists in Python's backtracking
priority order (leftmost alternative first, longest repetition first);
`search`/`finditer` scan start positions left to right. -/

structure MState where
  seen : Option Char
  rest : List Char
deriving DecidableEq

/-- The `\b` word-boundary test between two adjacent characters (edges of
the string count as non-word). -/
def wbHead (pre nxt : Option Char) : Bool :=
  (match pre with | some c => isWordC c | none => false) !=
    (match nxt with | some c => isWordC c | none => false)

/-- `\b` at the current position. -/
def wbAt (s : MState) : Bool := wbHead s.seen s.rest.head?

/-- Consume one character matching the class `p`. -/
def stepIf (p : Char → Bool) (s : MState) : Option MState :=
  match s.rest with
  | c :: r => if p c then some ⟨some c, r⟩ else none
  | [] => none

/-- Consume exactly `k` digits and return their numeric value
(`int(m.group(i))` of the captured digits). -/
def digitsK (s : MState) (k : Nat) : Option (Nat × MState) :=
  let ds := s.rest.take k
  if ds.length = k ∧ ds.all isDig then
    some (ds.foldl (fun a c => 10 * a + dv c) 0,
      ⟨match ds.getLast? with | some c => some c | none => s.seen,
        s.rest.drop k⟩)
  else none

/-- Case-insensitive literal (ASCII case folding, as modelled). -/
def litCI : List Char → MState → Option MState
  | [], s => some s
  | p :: ps, s =>
    match s.rest with
    | c :: r => if lowerC c == lowerC p then litCI ps ⟨some c, r⟩ else none
    | [] => none

/-- Advance `k` characters (`k` at most the current run length). -/
def advN (s : MState) (k : Nat) : MState :=
  match (s.rest.take k).getLast? with
  | some c => ⟨some c, s.rest.drop k⟩
  | none => ⟨s.seen, s.rest.drop k⟩

/-- Greedy bounded repetition `p{lo,hi}` of a character class: candidate
positions in backtracking order (longest first). -/
def repCands (p : Char → Bool) (lo hi : Nat) (s : MState) : List MState :=
  let run := (s.rest.takeWhile p).length
  let top := min hi run
  if top < lo then []
  else (List.range (top + 1 - lo)).map fun j => advN s (top - j)

/-- Greedy `p*`. -/
def starCands (p : Char → Bool) (s : MState) : List MState :=
  repCands p 0 s.rest.length s

/-- Greedy `p+`. -/
def plusCands (p : Char → Bool) (s : MState) : List MState :=
  repCands p 1 s.rest.length s

/-- `finditer`: all non-overlapping matches, scanning start positions left
to right (fuel-structural; fuel is instantiated to cover the input). -/
def scanAllF {α : Type} (tryM : MState → Option (α × MState)) :
    Nat → MState → List α
  | 0, _ => []
  | fuel + 1, s =>
    match tryM s with
    | some (a, s') =>
      match s.rest with
      | [] => [a]
      | c :: r =>
        if s'.rest.length < s.rest.length then a :: scanAllF tryM fuel s'
        else a :: scanAllF tryM fuel ⟨some c, r⟩
    | none =>
      match s.rest with
      | [] => []
      | c :: r => scanAllF tryM fuel ⟨some c, r⟩

/-- All matches of a pattern in a text, in document order. -/
def scanAll {α : Type} (tryM : MState → Option (α × MState)) (l : List Char) :
    List α :=
  scanAllF tryM (l.length + 1) ⟨none, l⟩

/-- `search`: the first match, scanning left to right. -/
def searchF {α : Type} (tryM : MState → Option (α × MState)) :
    Nat → MState → Option α
  | 0, _ => none
  | fuel + 1, s =>
    match tryM s with
    | some (a, _) => some a
    | none =>
      match s.rest with
      | [] => none
      | c :: r => searchF tryM fuel ⟨some c, r⟩

def search {α : Type} (tryM : MState → Option (α × MState)) (l : List Char) :
    Option α :=
  searchF tryM (l.length + 1) ⟨none, l⟩

/-! ## `extract.py` date patterns (claim C4) -/

def isSepISO (c : Char) : Bool := c == '/' || c == '-'

def isSepFR (c : Char) : Bool := c == '/' || c == '-' || c == '.'

/-- `DATE_ISO = \b(20\d{2})[/\-](\d{2})[/\-](\d{2})\b`; the result carries
`(int(g1), int(g2), int(g3))`. -/
def tryISO (s : MState) : Option ((Nat × Nat × Nat) × MState) :=
  if wbAt s then
    match s.rest with
    | c0 :: c1 :: c2 :: c3 :: p1 :: m1 :: m2 :: p2 :: d1 :: d2 :: r =>
      if c0 == '2' && c1 == '0' && isDig c2 && isDig c3 && isSepISO p1 &&
          isDig m1 && isDig m2 && isSepISO p2 && isDig d1 && isDig d2 then
        if wbHead (some d2) r.head? then
          some ((2000 + 10 * dv c2 + dv c3, 10 * dv m1 + dv m2,
            10 * dv d1 + dv d2), ⟨some d2, r⟩)
        else none
      else none
    | _ => none
  else none

/-- Greedy `\d{1,2}` candidates. -/
def take12 (s : MState) : List (Nat × MState) := [2, 1].filterMap (digitsK s)

/-- Greedy `\d{2,4}` candidates. -/
def take24 (s : MState) : List (Nat × MState) := [4, 3, 2].filterMap (digitsK s)

/-- `\d{4}`. -/
def take4 (s : MState) : List (Nat × MState) := [4].filterMap (digitsK s)

/-- `DATE_FR = \b(\d{1,2})[/\-\.](\d{1,2})[/\-\.](\d{2,4})\b`, with the
captured groups as `(day, month, year)` numbers. -/
def tryFR (s : MState) : Option ((Nat × Nat × Nat) × MState) :=
  if wbAt s then
    (take12 s).findSome? fun dc =>
      (stepIf isSepFR dc.2).bind fun s2 =>
        (take12 s2).findSome? fun mc =>
          (stepIf isSepFR mc.2).bind fun s4 =>
            (take24 s4).findSome? fun yc =>
              if wbAt yc.2 then some ((dc.1, mc.1, yc.1), yc.2) else none
  else none

def MONTHS_FR : List String :=
  ["janvier", "février", "mars", "avril", "mai", "juin", "juillet", "août",
    "septembre", "octobre", "novembre", "décembre"]

/-- The month-name alternation of `DATE_FR_LONG`, tried in tuple order;
returns the 1-based month index (`MONTHS_FR.index(name) + 1`). -/
def monthAlt (s : MState) : Option (Nat × MState) :=
  MONTHS_FR.enum.findSome? fun im =>
    (litCI im.2.data s).map fun s' => (im.1 + 1, s')

/-- `DATE_FR_LONG = \b(\d{1,2})\s+(janvier|…|décembre)\s+(\d{4})\b`
(case-insensitive), with groups `(day, month-number, year)`. -/
def tryFRLong (s : MState) : Option ((Nat × Nat × Nat) × MState) :=
  if wbAt s then
    (take12 s).findSome? fun dc =>
      (plusCands isSp dc.2).findSome? fun s2 =>
        (monthAlt s2).bind fun mc =>
          (plusCands isSp mc.2).findSome? fun s4 =>
            (take4 s4).findSome? fun yc =>
              if wbAt yc.2 then some ((dc.1, mc.1, yc.1), yc.2) else none
  else none

/-- `extract.py::_parse_iso_date`. -/
def parseISO (m : Nat × Nat × Nat) : Option PyDate := mkDate m.1 m.2.1 m.2.2

/-- `extract.py::_parse_fr_date` (two-digit years get 2000 added). -/
def parseFR (m : Nat × Nat × Nat) : Option PyDate :=
  let y := if m.2.2 < 100 then m.2.2 + 2000 else m.2.2
  mkDate y m.2.1 m.1

/-- `extract.py::_parse_fr_long_date`. -/
def parseFRLong (m : Nat × Nat × Nat) : Option PyDate :=
  mkDate m.2.2 m.2.1 m.1

/-- The plausibility window `date(2000,1,1) <= d <= date(2030,12,31)`. -/
def inWindow (d : PyDate) : Bool :=
  dateLE ⟨2000, 1, 1⟩ d && dateLE d ⟨2030, 12, 31⟩

/-- The inner loop of `extract_date`: first match whose parse is a valid,
in-window date. -/
def firstPlausIn {α : Type} (ms : List α) (parse : α → Option PyDate) :
    Option PyDate :=
  ms.findSome? fun m =>
    match parse m with
    | some d => if inWindow d then some d else none
    | none => none

/-- `extract.py::extract_date`: the pattern/parser loop unrolled in its
source order (ISO, then numeric FR, then long FR). -/
def extract_date (texte : String) : Option PyDate :=
  match firstPlausIn (scanAll tryISO texte.data) parseISO with
  | some d => some d
  | none =>
    match firstPlausIn (scanAll tryFR texte.data) parseFR with
    | some d => some d
    | none => firstPlausIn (scanAll tryFRLong texte.data) parseFRLong

/-- Specification-side date extraction: concatenate the inWindow parses
of the three patterns in priority order and take the first. -/
def specDate (texte : String) : Option PyDate :=
  (((scanAll tryISO texte.data).filterMap fun m =>
      (parseISO m).filter inWindow) ++
    ((scanAll tryFR texte.data).filterMap fun m =>
      (parseFR m).filter inWindow) ++
    ((scanAll tryFRLong texte.data).filterMap fun m =>
      (parseFRLong m).filter inWindow)).head?

theorem firstPlausIn_eq_head {α : Type} (ms : List α)
    (parse : α → Option PyDate) :
    firstPlausIn ms parse = (ms.filterMap fun m =>
      (parse m).filter inWindow).head? := by
  induction ms with
  | nil => rfl
  | cons a t ih =>
    simp only [firstPlausIn, List.findSome?_cons, List.filterMap_cons]
    cases hp : parse a with
    | none =>
      simp only [Option.filter, firstPlausIn] at ih ⊢
      exact ih
    | some d =>
      by_cases hd : inWindow d = true
      · simp [Option.filter, hd]
      · simp only [Option.filter, if_neg hd, firstPlausIn] at ih ⊢
        simp only [Bool.not_eq_true] at hd
        simp [hd, ih]

theorem firstPlausIn_sound {α : Type} (ms : List α)
    (parse : α → Option PyDate) (d : PyDate)
    (h : firstPlausIn ms parse = some d) :
    inWindow d = true ∧ ∃ m ∈ ms, parse m = some d := by
  rw [firstPlausIn_eq_head] at h
  have hdm : d ∈ ms.filterMap fun m => (parse m).filter inWindow :=
    List.mem_of_mem_head? (by rw [h]; exact Option.mem_some_iff.mpr rfl)
  obtain ⟨m, hm, hf⟩ := List.mem_filterMap.mp hdm
  cases hp : parse m with
  | none =>
    rw [hp] at hf
    simp [Option.filter] at hf
  | some d' =>
    rw [hp] at hf
    by_cases hpl : inWindow d' = true
    · simp only [Option.filter, hpl, Option.bind_some, if_pos] at hf
      have : d' = d := by simpa using hf
      subst this
      exact ⟨hpl, m, hm, hp⟩
    · simp only [Option.filter] at hf
      rw [Bool.not_eq_true] at hpl
      simp [hpl] at hf

theorem mkDate_sound (y m dd : Nat) (d : PyDate) (h : mkDate y m dd = some d) :
    d.year = y ∧ d.month = m ∧ d.day = dd ∧ 1 ≤ d.year ∧ d.year ≤ 9999 ∧
      1 ≤ d.month ∧ d.month ≤ 12 ∧ 1 ≤ d.day ∧
      d.day ≤ daysInMonth d.year d.month := by
  unfold mkDate at h
  split at h
  · simp at h
    subst h
    simp_all
  · simp at h

/-- C4.  Date extraction tries the ISO pattern, the numeric day/month/year
pattern, then the long month-name pattern in that priority order and
returns the first match (by that priority, in document order within a
pattern) parsing to a valid calendar date inside 2000-01-01..2030-12-31;
an invalid calendar combination is skipped, not an error; a two-digit year
resolves to the value plus 2000; with no inWindow match the result is
absent (`none`). -/
theorem claim_c4 (t : String) :
    extract_date t = specDate t ∧
      (∀ d mth y, y < 100 → parseFR (d, mth, y) = mkDate (y + 2000) mth d) ∧
      (∀ d, extract_date t = some d →
        inWindow d = true ∧ 1 ≤ d.month ∧ d.month ≤ 12 ∧ 1 ≤ d.day ∧
          d.day ≤ daysInMonth d.year d.month ∧
          dateLE ⟨2000, 1, 1⟩ d = true ∧ dateLE d ⟨2030, 12, 31⟩ = true) := by
  refine ⟨?_, ?_, ?_⟩
  · show (match firstPlausIn (scanAll tryISO t.data) parseISO with
      | some d => some d
      | none =>
        match firstPlausIn (scanAll tryFR t.data) parseFR with
        | some d => some d
        | none => firstPlausIn (scanAll tryFRLong t.data) parseFRLong) =
      specDate t
    unfold specDate
    rw [firstPlausIn_eq_head, firstPlausIn_eq_head, firstPlausIn_eq_head]
    cases hA : (scanAll tryISO t.data).filterMap
        (fun m => (parseISO m).filter inWindow) with
    | cons a A' => simp
    | nil =>
      simp only [List.nil_append, List.head?_nil]
      cases hB : (scanAll tryFR t.data).filterMap
          (fun m => (parseFR m).filter inWindow) with
      | cons b B' => simp
      | nil => simp
  · intro d mth y hy
    simp [parseFR, hy]
  · intro d hd
    have key : inWindow d = true ∧ 1 ≤ d.month ∧ d.month ≤ 12 ∧
        1 ≤ d.day ∧ d.day ≤ daysInMonth d.year d.month := by
      unfold extract_date at hd
      cases h1 : firstPlausIn (scanAll tryISO t.data) parseISO with
      | some d1 =>
        rw [h1] at hd
        simp at hd
        subst hd
        obtain ⟨hpl, m, -, hp⟩ := firstPlausIn_sound _ _ _ h1
        obtain ⟨-, -, -, -, -, hm1, hm2, hd1, hd2⟩ :=
          mkDate_sound m.1 m.2.1 m.2.2 d1 (by simpa [parseISO] using hp)
        exact ⟨hpl, hm1, hm2, hd1, hd2⟩
      | none =>
        rw [h1] at hd
        simp only at hd
        cases h2 : firstPlausIn (scanAll tryFR t.data) parseFR with
        | some d2 =>
          rw [h2] at hd
          simp at hd
          subst hd
          obtain ⟨hpl, m, -, hp⟩ := firstPlausIn_sound _ _ _ h2
          obtain ⟨-, -, -, -, -, hm1, hm2, hd1, hd2⟩ :=
            mkDate_sound (if m.2.2 < 100 then m.2.2 + 2000 else m.2.2)
              m.2.1 m.1 d2 (by simpa [parseFR] using hp)
          exact ⟨hpl, hm1, hm2, hd1, hd2⟩
        | none =>
          rw [h2] at hd
          simp only at hd
          obtain ⟨hpl, m, -, hp⟩ := firstPlausIn_sound _ _ _ hd
          obtain ⟨-, -, -, -, -, hm1, hm2, hd1, hd2⟩ :=
            mkDate_sound m.2.2 m.2.1 m.1 d (by simpa [parseFRLong] using hp)
          exact ⟨hpl, hm1, hm2, hd1, hd2⟩
    have hrange : dateLE ⟨2000, 1, 1⟩ d = true ∧
        dateLE d ⟨2030, 12, 31⟩ = true := by
      have hk := key.1
      simp only [inWindow, Bool.and_eq_true] at hk
      exact hk
    exact ⟨key.1, key.2.1, key.2.2.1, key.2.2.2.1, key.2.2.2.2,
      hrange.1, hrange.2⟩

/-- C4 witness: the theorem applied to a concrete text with a numeric
two-digit-year date; the extracted date is computed by `decide`. -/
theorem claim_c4_witness :
    extract_date "Facture 01/03/24" = some ⟨2024, 3, 1⟩ ∧
      (inWindow ⟨2024, 3, 1⟩ = true ∧ 1 ≤ (⟨2024, 3, 1⟩ : PyDate).month ∧
        (⟨2024, 3, 1⟩ : PyDate).month ≤ 12 ∧ 1 ≤ (⟨2024, 3, 1⟩ : PyDate).day ∧
        (⟨2024, 3, 1⟩ : PyDate).day ≤
          daysInMonth (⟨2024, 3, 1⟩ : PyDate).year (⟨2024, 3, 1⟩ : PyDate).month ∧
        dateLE ⟨2000, 1, 1⟩ ⟨2024, 3, 1⟩ = true ∧
        dateLE ⟨2024, 3, 1⟩ ⟨2030, 12, 31⟩ = true) :=
  ⟨by decide, (claim_c4 "Facture 01/03/24").2.2 ⟨2024, 3, 1⟩ (by decide)⟩

/-! ## `extract.py` amount patterns (claim C6)

`MONTANT_TTC = (?:total\s+ttc|ttc\s*:?|montant\s+ttc|total\s+à\s+payer)`
`\s*:?\s*([\d\s]+[,\.]\d{2})\s*(?:€|eur|euros?)?` (IGNORECASE), searched;
`MONTANT_FALLBACK = ([\d\s]+[,\.]\d{2})\s*(?:€|eur|euros?)\b`, iterated,
taken in reverse order, first parseable value wins. -/

def isDigSp (c : Char) : Bool := isDig c || isSp c

/-- The capture group `([\d\s]+[,\.]\d{2})`: candidate `(captured chars,
end state)` pairs in backtracking order. -/
def groupAmount (s : MState) : List (List Char × MState) :=
  (plusCands isDigSp s).filterMap fun s1 =>
    (stepIf (fun c => c == ',' || c == '.') s1).bind fun s2 =>
      match s2.rest with
      | a :: b :: r =>
        if isDig a && isDig b then
          some (s.rest.take (s.rest.length - r.length), ⟨some b, r⟩)
        else none
      | _ => none

/-- An optional literal character (`:?`, `s?`): match-first candidates. -/
def optCh (c : Char) (s : MState) : List MState :=
  match stepIf (· == c) s with
  | some s' => [s', s]
  | none => [s]

/-- Label alternative `total\s+ttc`. -/
def alt1 (s : MState) : List MState :=
  match litCI "total".data s with
  | some s1 => (plusCands isSp s1).filterMap (litCI "ttc".data)
  | none => []

/-- Label alternative `ttc\s*:?`. -/
def alt2 (s : MState) : List MState :=
  match litCI "ttc".data s with
  | some s1 => (starCands isSp s1).flatMap (optCh ':')
  | none => []

/-- Label alternative `montant\s+ttc`. -/
def alt3 (s : MState) : List MState :=
  match litCI "montant".data s with
  | some s1 => (plusCands isSp s1).filterMap (litCI "ttc".data)
  | none => []

/-- Label alternative `total\s+à\s+payer`. -/
def alt4 (s : MState) : List MState :=
  match litCI "total".data s with
  | some s1 =>
    (plusCands isSp s1).flatMap fun s2 =>
      match litCI "à".data s2 with
      | some s3 => (plusCands isSp s3).filterMap (litCI "payer".data)
      | none => []
  | none => []

/-- The labelled-total alternation, in source order. -/
def labelAlt (s : MState) : List MState := alt1 s ++ alt2 s ++ alt3 s ++ alt4 s

/-- The currency alternation `€|eur|euros?`, in source order. -/
def currencyAlt (s : MState) : List MState :=
  (litCI "€".data s).toList ++ (litCI "eur".data s).toList ++
    ((litCI "euro".data s).toList.flatMap (optCh 's'))

/-- `(?:€|eur|euros?)?`. -/
def currencyOpt (s : MState) : List MState := currencyAlt s ++ [s]

/-- One attempted match of `MONTANT_TTC` at a position, returning the
captured group. -/
def tryTTC (s : MState) : Option (List Char × MState) :=
  (labelAlt s).findSome? fun s1 =>
    (starCands isSp s1).findSome? fun s2 =>
      (optCh ':' s2).findSome? fun s3 =>
        (starCands isSp s3).findSome? fun s4 =>
          (groupAmount s4).findSome? fun gs =>
            (starCands isSp gs.2).findSome? fun s6 =>
              (currencyOpt s6).findSome? fun s7 => some (gs.1, s7)

/-- One attempted match of `MONTANT_FALLBACK` at a position. -/
def tryFB (s : MState) : Option (List Char × MState) :=
  (groupAmount s).findSome? fun gs =>
    (starCands isSp gs.2).findSome? fun s2 =>
      (currencyAlt s2).findSome? fun s3 =>
        if wbAt s3 then some (gs.1, s3) else none

/-- `m.group(1).replace(" ", "").replace(",", ".")`: remove spaces (only
U+0020), then turn the comma decimal mark into a period. -/
def normAmount (g : List Char) : List Char :=
  (g.filter fun c => !(c == ' ')).map fun c => if c == ',' then '.' else c

/-- Python `float(s)` on the decimal shapes reachable from the normalised
regex groups: optional surrounding whitespace, then digits with at most
one period and at least one digit; anything else (e.g. an internal tab
surviving normalisation) raises `ValueError`, modelled as `none`. -/
def parseAmount (g : List Char) : Option ℚ :=
  let t := stripBoth isSp g
  if t ≠ [] ∧ (t.all fun c => isDig c || c == '.') ∧ t.count '.' ≤ 1 ∧
      t.any isDig then
    let ip := t.takeWhile fun c => !(c == '.')
    let fp := (t.dropWhile fun c => !(c == '.')).drop 1
    some ((numVal ip : ℚ) + (numVal fp : ℚ) / (10 : ℚ) ^ fp.length)
  else none

/-- The fallback loop: `for m in reversed(list(finditer)): try float`. -/
def fbLast (texte : String) : Option ℚ :=
  (scanAll tryFB texte.data).reverse.findSome? fun g =>
    parseAmount (normAmount g)

/-- `extract.py::extract_montant_ttc`. -/
def extract_montant_ttc (texte : String) : Option ℚ :=
  match search tryTTC texte.data with
  | some g =>
    match parseAmount (normAmount g) with
    | some q => some q
    | none => fbLast texte
  | none => fbLast texte

theorem findSome?_eq_head_filterMap {α β : Type} (l : List α)
    (f : α → Option β) : l.findSome? f = (l.filterMap f).head? := by
  induction l with
  | nil => rfl
  | cons a t ih =>
    rw [List.findSome?_cons, List.filterMap_cons]
    cases hfa : f a with
    | none => exact ih
    | some b => rfl

theorem findSome?_reverse_eq_getLast {α β : Type} (l : List α)
    (f : α → Option β) :
    l.reverse.findSome? f = (l.filterMap f).getLast? := by
  rw [findSome?_eq_head_filterMap, List.filterMap_reverse,
    List.getLast?_eq_head?_reverse]

/-- C6 (counterexample).  The claim says the fallback scan happens "only
if no labeled match yields a parseable value".  In the code only the
FIRST labeled match is ever parsed: on
`"ttc 1\t1,11 ttc 22,22"` the first labeled group `"1\t1,11"` keeps an
internal tab after normalisation and fails to parse, a second labeled
match (`"22,22"`) does yield a parseable value, yet the function falls
through to the currency fallback (which finds nothing) and returns
`None` instead of that labeled value. -/
theorem claim_c6_counterexample :
    (scanAll tryTTC "ttc 1\t1,11 ttc 22,22".data).any
        (fun g => (parseAmount (normAmount g)).isSome) = true ∧
      extract_montant_ttc "ttc 1\t1,11 ttc 22,22" = none := by
  constructor <;> decide

/-- C6 (amended).  Amount extraction returns the normalised value of the
FIRST labeled-total match when that value parses; if the first labeled
match's value fails to parse, or there is no labeled match at all, it
scans all currency-marked numeric occurrences and returns the last
parseable one in document order; if neither route yields a value the
amount is absent. -/
theorem claim_c6 (t : String) :
    (∀ g q, search tryTTC t.data = some g →
      parseAmount (normAmount g) = some q → extract_montant_ttc t = some q) ∧
      (∀ g, search tryTTC t.data = some g →
        parseAmount (normAmount g) = none →
        extract_montant_ttc t = fbLast t) ∧
      (search tryTTC t.data = none → extract_montant_ttc t = fbLast t) ∧
      fbLast t = ((scanAll tryFB t.data).filterMap fun g =>
        parseAmount (normAmount g)).getLast? := by
  refine ⟨?_, ?_, ?_, ?_⟩
  · intro g q hs hp
    unfold extract_montant_ttc
    rw [hs]
    show (match parseAmount (normAmount g) with
      | some q => some q
      | none => fbLast t) = some q
    rw [hp]
  · intro g hs hp
    unfold extract_montant_ttc
    rw [hs]
    show (match parseAmount (normAmount g) with
      | some q => some q
      | none => fbLast t) = fbLast t
    rw [hp]
  · intro hs
    unfold extract_montant_ttc
    rw [hs]
  · exact findSome?_reverse_eq_getLast _ _

/-- C6 witness: a text with no labeled-total phrase takes the fallback
route (last currency-marked value). -/
theorem claim_c6_witness :
    search tryTTC "Montant a payer 42,00 euros".data = none ∧
      extract_montant_ttc "Montant a payer 42,00 euros" =
        fbLast "Montant a payer 42,00 euros" :=
  ⟨by decide, (claim_c6 "Montant a payer 42,00 euros").2.2.1 (by decide)⟩

/-! ## `suppliers.py::resolve_fournisseur` (claim C8)

The rapidfuzz scorers `fuzz.ratio` / `fuzz.partial_ratio` are external
collaborators; they are modelled as an abstract pair of 0–100 scorers
supplied as an oracle, `none` modelling the `ImportError` fallback. -/

structure Fuzz where
  scoreFull : String → String → Nat
  scorePart : String → String → Nat

/-- Python `str.lower` (ASCII fragment) at `String` level. -/
def lowerS (s : String) : String := ⟨lowerL s.data⟩

/-- One iteration of the best-match loop: try `ratio`, then
`partial_ratio`, each accepted when it meets the cutoff and strictly
beats the running best. -/
def foldStep (cutoff : Nat) (f : Fuzz) (raw : String)
    (b : Nat × Option String) (kv : String × String) : Nat × Option String :=
  let r := f.scoreFull (lowerS raw) (lowerS kv.1)
  let b1 := if cutoff ≤ r ∧ b.1 < r then (r, some kv.2) else b
  let pr := f.scorePart (lowerS raw) (lowerS kv.1)
  if cutoff ≤ pr ∧ b1.1 < pr then (pr, some kv.2) else b1

/-- `extracted.fournisseur = value` (the in-place assignment). -/
def setFournisseur (e : ExtractedData) (v : String) : ExtractedData :=
  { e with fournisseur := some v }

/-- `suppliers.py::resolve_fournisseur` (returns the updated record
instead of mutating in place). -/
def resolve_fournisseur (e : ExtractedData)
    (mapping : List (String × String)) (fz : Option Fuzz)
    (cutoff : Nat := 70) : ExtractedData :=
  match e.fournisseur_raw with
  | none => e
  | some raw =>
    if raw = "" ∨ mapping = [] then e
    else
      match fz with
      | none =>
        match mapping.find?
            (fun kv => containsL (lowerL raw.data) (lowerL kv.1.data)) with
        | some kv => setFournisseur e kv.2
        | none => e
      | some f =>
        let best := mapping.foldl (foldStep cutoff f raw) (0, none)
        match best.2 with
        | some v => if v ≠ "" then setFournisseur e v else e
        | none => e

/-- The score of one alias "across both metrics" (specification view). -/
def aliasScore (f : Fuzz) (raw : String) (kv : String × String) : Nat :=
  max (f.scoreFull (lowerS raw) (lowerS kv.1))
    (f.scorePart (lowerS raw) (lowerS kv.1))

/-- Maximum score among the aliases meeting the cutoff (0 when none). -/
def qmax (f : Fuzz) (raw : String) (cutoff : Nat) :
    List (String × String) → Nat
  | [] => 0
  | kv :: t =>
    if cutoff ≤ aliasScore f raw kv then
      max (aliasScore f raw kv) (qmax f raw cutoff t)
    else qmax f raw cutoff t

/-- Specification-side winner: the first alias/canonical pair achieving
the maximum score across both metrics among those meeting the cutoff. -/
def specBest (f : Fuzz) (raw : String) (mapping : List (String × String))
    (cutoff : Nat) : Option (String × String) :=
  let M := qmax f raw cutoff mapping
  if M = 0 then none
  else mapping.find? fun kv => aliasScore f raw kv == M

theorem foldStep_net (cutoff : Nat) (f : Fuzz) (raw : String)
    (b : Nat × Option String) (kv : String × String) :
    foldStep cutoff f raw b kv =
      if cutoff ≤ aliasScore f raw kv ∧ b.1 < aliasScore f raw kv then
        (aliasScore f raw kv, some kv.2)
      else b := by
  unfold foldStep aliasScore
  set r := f.scoreFull (lowerS raw) (lowerS kv.1) with hr
  set pr := f.scorePart (lowerS raw) (lowerS kv.1) with hpr
  rcases Nat.le_total pr r with hmax | hmax
  · rw [Nat.max_eq_left hmax]
    by_cases h1 : cutoff ≤ r ∧ b.1 < r
    · rw [if_pos h1]
      simp only [if_pos h1]
      rw [if_neg]
      rintro ⟨-, hlt⟩
      omega
    · rw [if_neg h1]
      simp only [if_neg h1]
      rw [if_neg]
      rintro ⟨h2a, h2b⟩
      exact h1 ⟨le_trans h2a hmax, lt_of_lt_of_le h2b hmax⟩
  · rw [Nat.max_eq_right hmax]
    by_cases h2 : cutoff ≤ pr ∧ b.1 < pr
    · rw [if_pos h2]
      by_cases h1 : cutoff ≤ r ∧ b.1 < r
      · simp only [if_pos h1]
        by_cases h3 : r < pr
        · rw [if_pos ⟨h2.1, h3⟩]
        · have hrp : r = pr := Nat.le_antisymm hmax (Nat.not_lt.mp h3)
          rw [if_neg]
          · rw [hrp]
          · rintro ⟨-, hlt⟩
            omega
      · simp only [if_neg h1]
        rw [if_pos ⟨h2.1, h2.2⟩]
    · rw [if_neg h2]
      have h1 : ¬(cutoff ≤ r ∧ b.1 < r) := by
        rintro ⟨ha, hb⟩
        exact h2 ⟨le_trans ha hmax, lt_of_lt_of_le hb hmax⟩
      simp only [if_neg h1]
      rw [if_neg h2]

theorem qmax_cutoff (f : Fuzz) (raw : String) (cutoff : Nat)
    (l : List (String × String)) (h : qmax f raw cutoff l ≠ 0) :
    cutoff ≤ qmax f raw cutoff l := by
  induction l with
  | nil => simp [qmax] at h
  | cons kv t ih =>
    by_cases hq : cutoff ≤ aliasScore f raw kv
    · rw [show qmax f raw cutoff (kv :: t) =
        max (aliasScore f raw kv) (qmax f raw cutoff t) from by
          simp [qmax, hq]] at h ⊢
      omega
    · rw [show qmax f raw cutoff (kv :: t) = qmax f raw cutoff t from by
        simp [qmax, hq]] at h ⊢
      exact ih h

theorem bestOver_char (f : Fuzz) (raw : String) (cutoff : Nat)
    (l : List (String × String)) :
    ∀ b : Nat × Option String,
      (qmax f raw cutoff l ≤ b.1 → l.foldl (foldStep cutoff f raw) b = b) ∧
      (b.1 < qmax f raw cutoff l →
        ∃ kv, (l.find? fun kv =>
            aliasScore f raw kv == qmax f raw cutoff l) = some kv ∧
          l.foldl (foldStep cutoff f raw) b =
            (qmax f raw cutoff l, some kv.2)) := by
  induction l with
  | nil =>
    intro b
    refine ⟨fun _ => rfl, fun h => ?_⟩
    simp [qmax] at h
  | cons kv t ih =>
    intro b
    by_cases hq : cutoff ≤ aliasScore f raw kv
    · have hqm : qmax f raw cutoff (kv :: t) =
          max (aliasScore f raw kv) (qmax f raw cutoff t) := by
        simp [qmax, hq]
      constructor
      · intro hle
        rw [hqm] at hle
        rw [List.foldl_cons, foldStep_net,
          if_neg (by rintro ⟨-, hlt⟩; omega)]
        exact (ih b).1 (by omega)
      · intro hlt
        rw [hqm] at hlt
        by_cases hsM : aliasScore f raw kv =
            max (aliasScore f raw kv) (qmax f raw cutoff t)
        · -- the head attains the maximum and is strictly above the running best
          refine ⟨kv, ?_, ?_⟩
          · rw [List.find?_cons, hqm]
            have : (aliasScore f raw kv ==
                max (aliasScore f raw kv) (qmax f raw cutoff t)) = true := by
              simpa using hsM
            rw [this]
          · rw [List.foldl_cons, foldStep_net,
              if_pos ⟨hq, by omega⟩]
            have := (ih (max (aliasScore f raw kv) (qmax f raw cutoff t),
              some kv.2)).1
            rw [hqm, ← hsM]
            rw [← hsM] at this
            exact this (by omega)
        · -- the maximum lives in the tail
          have hM : qmax f raw cutoff (kv :: t) = qmax f raw cutoff t := by
            rw [hqm]; omega
          have hslt : aliasScore f raw kv < qmax f raw cutoff t := by omega
          rw [List.foldl_cons, foldStep_net]
          by_cases hb : b.1 < aliasScore f raw kv
          · rw [if_pos ⟨hq, hb⟩]
            obtain ⟨kv', hfind, hfold⟩ := (ih (aliasScore f raw kv,
              some kv.2)).2 (by simpa using hslt)
            refine ⟨kv', ?_, ?_⟩
            · rw [List.find?_cons, hM]
              have : (aliasScore f raw kv == qmax f raw cutoff t) = false := by
                simp
                omega
              rw [this]
              exact hfind
            · rw [hM]
              exact hfold
          · rw [if_neg (by rintro ⟨-, h⟩; exact hb h)]
            obtain ⟨kv', hfind, hfold⟩ := (ih b).2 (by omega)
            refine ⟨kv', ?_, ?_⟩
            · rw [List.find?_cons, hM]
              have : (aliasScore f raw kv == qmax f raw cutoff t) = false := by
                simp
                omega
              rw [this]
              exact hfind
            · rw [hM]
              exact hfold
    · have hM : qmax f raw cutoff (kv :: t) = qmax f raw cutoff t := by
        simp [qmax, hq]
      constructor
      · intro hle
        rw [List.foldl_cons, foldStep_net,
          if_neg (by rintro ⟨hc, -⟩; exact hq hc)]
        exact (ih b).1 (by rw [hM] at hle; exact hle)
      · intro hlt
        rw [hM] at hlt
        have hne : qmax f raw cutoff t ≠ 0 := by omega
        have hcut := qmax_cutoff f raw cutoff t hne
        rw [List.foldl_cons, foldStep_net,
          if_neg (by rintro ⟨hc, -⟩; exact hq hc)]
        obtain ⟨kv', hfind, hfold⟩ := (ih b).2 hlt
        refine ⟨kv', ?_, ?_⟩
        · rw [List.find?_cons, hM]
          have : (aliasScore f raw kv == qmax f raw cutoff t) = false := by
            simp
            omega
          rw [this]
          exact hfind
        · rw [hM]
          exact hfold

/-- Constant 100-scorers: the rapidfuzz values for an alias equal to the
raw text (`fuzz.ratio("edf", "edf") = fuzz.partial_ratio("edf", "edf")
= 100`). -/
def fuzz100 : Fuzz := ⟨fun _ _ => 100, fun _ _ => 100⟩

/-- A record with raw supplier text `"edf"`. -/
def ex8 : ExtractedData :=
  { type_document := "inconnu", fournisseur_raw := some "edf" }

/-- C8 (counterexample).  With mapping `{"edf": ""}` (an empty canonical
name), raw text `"edf"` and perfect similarity scores, the claim says the
canonical name `""` of the maximal qualifying alias is assigned; the code
leaves `fournisseur` unset because of the final `if best_value:`
truthiness check. -/
theorem claim_c8_counterexample :
    qmax fuzz100 "edf" 70 [("edf", "")] = 100 ∧
      specBest fuzz100 "edf" [("edf", "")] 70 = some ("edf", "") ∧
      resolve_fournisseur ex8 [("edf", "")] (some fuzz100) 70 = ex8 ∧
      (resolve_fournisseur ex8 [("edf", "")] (some fuzz100) 70).fournisseur ≠
        some "" := by
  refine ⟨rfl, rfl, rfl, by decide⟩

/-- C8 (amended).  Supplier resolution is a no-op when the raw text is
absent/empty or the mapping is empty.  With similarity scoring available
it assigns the canonical name of the first alias achieving the maximum
score across the full-string and substring metrics among those meeting
the cutoff, provided that maximum is nonzero and the winning canonical
name is non-empty (an empty canonical value is never assigned by the
fuzzy path); otherwise the field is left unchanged.  With scoring
unavailable it assigns the canonical name of the first alias contained
case-insensitively in the raw text, if any. -/
theorem claim_c8 (e : ExtractedData) (mapping : List (String × String))
    (f : Fuzz) (cutoff : Nat) :
    ((e.fournisseur_raw = none ∨ e.fournisseur_raw = some "" ∨ mapping = []) →
      resolve_fournisseur e mapping (some f) cutoff = e ∧
        resolve_fournisseur e mapping none cutoff = e) ∧
      (∀ raw, e.fournisseur_raw = some raw → raw ≠ "" → mapping ≠ [] →
        resolve_fournisseur e mapping (some f) cutoff =
          (match specBest f raw mapping cutoff with
            | some kv =>
              if kv.2 ≠ "" then setFournisseur e kv.2 else e
            | none => e)) ∧
      (∀ raw, e.fournisseur_raw = some raw → raw ≠ "" → mapping ≠ [] →
        resolve_fournisseur e mapping none cutoff =
          (match mapping.find?
              (fun kv => containsL (lowerL raw.data) (lowerL kv.1.data)) with
            | some kv => setFournisseur e kv.2
            | none => e)) := by
  refine ⟨?_, ?_, ?_⟩
  · rintro (h | h | h)
    · unfold resolve_fournisseur
      rw [h]
      exact ⟨rfl, rfl⟩
    · unfold resolve_fournisseur
      rw [h]
      exact ⟨if_pos (Or.inl rfl), if_pos (Or.inl rfl)⟩
    · unfold resolve_fournisseur
      cases hr : e.fournisseur_raw with
      | none => exact ⟨rfl, rfl⟩
      | some raw => exact ⟨if_pos (Or.inr h), if_pos (Or.inr h)⟩
  · intro raw hraw hne hm
    unfold resolve_fournisseur
    rw [hraw]
    show (if raw = "" ∨ mapping = [] then e
      else
        match (mapping.foldl (foldStep cutoff f raw) (0, none)).2 with
        | some v => if v ≠ "" then setFournisseur e v else e
        | none => e) = _
    rw [if_neg (by rintro (h | h); exacts [hne h, hm h])]
    by_cases hM : qmax f raw cutoff mapping = 0
    · have h1 := (bestOver_char f raw cutoff mapping (0, none)).1 (by omega)
      rw [h1]
      simp [specBest, hM]
    · obtain ⟨kv, hfind, hfold⟩ :=
        (bestOver_char f raw cutoff mapping (0, none)).2
          (Nat.pos_of_ne_zero hM)
      rw [hfold]
      simp only [specBest, if_neg hM, hfind]
  · intro raw hraw hne hm
    unfold resolve_fournisseur
    rw [hraw]
    show (if raw = "" ∨ mapping = [] then e
      else
        match mapping.find?
            (fun kv => containsL (lowerL raw.data) (lowerL kv.1.data)) with
        | some kv => setFournisseur e kv.2
        | none => e) = _
    rw [if_neg (by rintro (h | h); exacts [hne h, hm h])]

/-- A record with raw supplier text `"EDF SA"`. -/
def ex8b : ExtractedData :=
  { type_document := "inconnu", fournisseur_raw := some "EDF SA" }

/-- C8 witness: the fuzzy branch of the amended theorem at a concrete
record, mapping and scorer pair. -/
theorem claim_c8_witness :
    ("EDF SA" ≠ "" ∧ ([("edf sa", "EDF")] : List (String × String)) ≠ []) ∧
      resolve_fournisseur ex8b [("edf sa", "EDF")] (some fuzz100) 70 =
        (match specBest fuzz100 "EDF SA" [("edf sa", "EDF")] 70 with
          | some kv =>
            if kv.2 ≠ "" then setFournisseur ex8b kv.2 else ex8b
          | none => ex8b) :=
  ⟨⟨by decide, by decide⟩,
    (claim_c8 ex8b [("edf sa", "EDF")] fuzz100 70).2.1 "EDF SA" rfl
      (by decide) (by decide)⟩

/-! ## `mover.py` (claims C1 and C2)

Paths are strings (`List Char`); a directory's contents are the list of
existing paths; `dest_dir / name` is string concatenation with `/`.
`Path.stem`/`Path.suffix` are embedded following `pathlib` (the suffix
starts at the last dot when it is neither leading nor trailing). -/

def pathJoin (d n : List Char) : List Char := d ++ '/' :: n

/-- Index of the last `'.'` (`name.rfind('.')` when it occurs). -/
def lastIndexOfDot : List Char → Option Nat
  | [] => none
  | c :: r =>
    match lastIndexOfDot r with
    | some i => some (i + 1)
    | none => if c = '.' then some 0 else none

/-- `pathlib` stem/suffix split of a file name. -/
def splitExt (name : List Char) : List Char × List Char :=
  match lastIndexOfDot name with
  | some i =>
    if 0 < i ∧ i < name.length - 1 then (name.take i, name.drop i)
    else (name, [])
  | none => (name, [])

/-- The collision candidate `f"{stem}_{i}{suffix}"`. -/
def candName (name : List Char) (i : Nat) : List Char :=
  (splitExt name).1 ++ '_' :: (decimalL i ++ (splitExt name).2)

/-- Bounded search for the first free index, scanning `start`,
`start+1`, … (`k` attempts). -/
def findFreeIdx (free : Nat → Bool) : Nat → Nat → Option Nat
  | _, 0 => none
  | start, k + 1 =>
    if free start then some start else findFreeIdx free (start + 1) k

/-- `mover.py::_unique_path`, returning the chosen file NAME.  The
unbounded `while True` loop is modelled by a search bounded by
`fs.length + 1` attempts; `exists_free` below proves a free index always
lies in that window, so the `none` fallback branch is unreachable. -/
def uniquePath (fs : List (List Char)) (destDir baseName : List Char) :
    List Char :=
  if pathJoin destDir baseName ∈ fs then
    match findFreeIdx
        (fun i => !(fs.contains (pathJoin destDir (candName baseName i))))
        1 (fs.length + 1) with
    | some i => candName baseName i
    | none => baseName
  else baseName

theorem candName_inj (name : List Char) :
    Function.Injective (candName name) := by
  intro a b h
  unfold candName at h
  have h1 := List.append_cancel_left h
  have h2 : decimalL a ++ (splitExt name).2 =
      decimalL b ++ (splitExt name).2 := by
    injection h1
  exact decimalL_injective (List.append_cancel_right h2)

theorem pathJoin_inj (d : List Char) {x y : List Char}
    (h : pathJoin d x = pathJoin d y) : x = y := by
  unfold pathJoin at h
  have h1 := List.append_cancel_left h
  injection h1

theorem exists_free (fs : List (List Char)) (g : Nat → List Char)
    (hinj : Function.Injective g) :
    ∃ i, 1 ≤ i ∧ i ≤ fs.length + 1 ∧ g i ∉ fs := by
  by_contra hcon
  push_neg at hcon
  have hsub : ((List.range (fs.length + 1)).map fun j => g (j + 1)) ⊆ fs := by
    intro x hx
    simp only [List.mem_map, List.mem_range] at hx
    obtain ⟨j, hj, rfl⟩ := hx
    exact hcon (j + 1) (by omega) (by omega)
  have hnd : ((List.range (fs.length + 1)).map fun j => g (j + 1)).Nodup := by
    refine List.Nodup.map ?_ (List.nodup_range _)
    intro a b hab
    have := hinj hab
    omega
  have hlen := (List.subperm_of_subset hnd hsub).length_le
  simp at hlen

theorem findFreeIdx_spec (free : Nat → Bool) :
    ∀ (k start w : Nat), start ≤ w → w < start + k → free w = true →
      ∃ i, findFreeIdx free start k = some i ∧ free i = true ∧ start ≤ i ∧
        i ≤ w ∧ ∀ j, start ≤ j → j < i → free j = false := by
  intro k
  induction k with
  | zero => intro start w h1 h2 _; omega
  | succ k ih =>
    intro start w h1 h2 hw
    by_cases hs : free start = true
    · exact ⟨start, by simp [findFreeIdx, hs], hs, le_refl _, h1,
        fun j hj1 hj2 => by omega⟩
    · have hws : w ≠ start := fun he => hs (he ▸ hw)
      obtain ⟨i, hfind, hfree, hge, hle, hmin⟩ :=
        ih (start + 1) w (by omega) (by omega) hw
      refine ⟨i, by simp [findFreeIdx, hs, hfind], hfree, by omega, hle, ?_⟩
      intro j hj1 hj2
      rcases Nat.eq_or_lt_of_le hj1 with he | hlt
      · rw [← he]
        exact Bool.not_eq_true _ ▸ (by simpa using hs)
      · exact hmin j hlt hj2

theorem contains_mem {α : Type} [BEq α] [LawfulBEq α] {l : List α} {a : α} :
    l.contains a = true ↔ a ∈ l := List.elem_iff

theorem uniquePath_char (fs : List (List Char)) (destDir baseName : List Char) :
    (pathJoin destDir baseName ∉ fs →
      uniquePath fs destDir baseName = baseName) ∧
      (pathJoin destDir baseName ∈ fs →
        ∃ i, 1 ≤ i ∧ uniquePath fs destDir baseName = candName baseName i ∧
          pathJoin destDir (candName baseName i) ∉ fs ∧
          ∀ j, 1 ≤ j → j < i → pathJoin destDir (candName baseName j) ∈ fs) ∧
      pathJoin destDir (uniquePath fs destDir baseName) ∉ fs := by
  have hkey : pathJoin destDir baseName ∈ fs →
      ∃ i, 1 ≤ i ∧ uniquePath fs destDir baseName = candName baseName i ∧
        pathJoin destDir (candName baseName i) ∉ fs ∧
        ∀ j, 1 ≤ j → j < i → pathJoin destDir (candName baseName j) ∈ fs := by
    intro hmem
    obtain ⟨w, hw1, hw2, hw3⟩ := exists_free fs
      (fun i => pathJoin destDir (candName baseName i))
      (fun a b hab => candName_inj baseName (pathJoin_inj destDir hab))
    have hfw : (fun i =>
        !(fs.contains (pathJoin destDir (candName baseName i)))) w = true := by
      simp only [Bool.not_eq_true']
      rw [← Bool.not_eq_true]
      intro hc
      exact hw3 (contains_mem.mp hc)
    obtain ⟨i, hfind, hfree, hge, hle, hmin⟩ :=
      findFreeIdx_spec
        (fun i => !(fs.contains (pathJoin destDir (candName baseName i))))
        (fs.length + 1) 1 w hw1 (by omega) hfw
    refine ⟨i, hge, ?_, ?_, ?_⟩
    · unfold uniquePath
      rw [if_pos hmem, hfind]
    · intro hc
      have : fs.contains (pathJoin destDir (candName baseName i)) = true :=
        contains_mem.mpr hc
      rw [this] at hfree
      simp at hfree
    · intro j hj1 hj2
      have hj := hmin j hj1 hj2
      rw [Bool.not_eq_false'] at hj
      exact contains_mem.mp hj
  refine ⟨?_, hkey, ?_⟩
  · intro hnot
    unfold uniquePath
    rw [if_neg hnot]
  · by_cases hmem : pathJoin destDir baseName ∈ fs
    · obtain ⟨i, -, heq, hfree, -⟩ := hkey hmem
      rw [heq]
      exact hfree
    · rw [(by unfold uniquePath; rw [if_neg hmem] :
        uniquePath fs destDir baseName = baseName)]
      exact hmem

/-- Directory contents after `n` successive moves that all render the
same destination name: each move adds the path `_unique_path` chose. -/
def moveStates (fs : List (List Char)) (destDir baseName : List Char) :
    Nat → List (List Char)
  | 0 => fs
  | n + 1 =>
    pathJoin destDir (uniquePath (moveStates fs destDir baseName n)
      destDir baseName) :: moveStates fs destDir baseName n

/-- The name chosen by the `(n+1)`-st of those successive moves. -/
def moveResult (fs : List (List Char)) (destDir baseName : List Char)
    (n : Nat) : List Char :=
  uniquePath (moveStates fs destDir baseName n) destDir baseName

theorem moveStates_sub (fs : List (List Char)) (destDir baseName : List Char) :
    ∀ m n, m ≤ n →
      moveStates fs destDir baseName m ⊆ moveStates fs destDir baseName n := by
  intro m n h
  induction n with
  | zero =>
    have : m = 0 := by omega
    subst this
    exact fun x hx => hx
  | succ k ih =>
    rcases Nat.eq_or_lt_of_le h with he | hlt
    · subst he
      exact fun x hx => hx
    · intro x hx
      exact List.mem_cons_of_mem _ (ih (by omega) hx)

theorem moveResult_path_mem (fs : List (List Char))
    (destDir baseName : List Char) (n : Nat) :
    pathJoin destDir (moveResult fs destDir baseName n) ∈
      moveStates fs destDir baseName (n + 1) := by
  simp [moveStates, moveResult]

theorem moveResult_free (fs : List (List Char))
    (destDir baseName : List Char) (n : Nat) :
    pathJoin destDir (moveResult fs destDir baseName n) ∉
      moveStates fs destDir baseName n :=
  (uniquePath_char (moveStates fs destDir baseName n) destDir baseName).2.2

/-- C2.  `_unique_path` returns the base name itself when its path does
not exist; otherwise the first `stem_i + extension` (i = 1, 2, …) that
does not exist; the chosen path never overwrites an existing one; and
over N successive moves whose rendered name collides, all N results are
distinct and, when the base name already exists, successive results carry
strictly increasing numeric suffixes. -/
theorem claim_c2 (fs : List (List Char)) (destDir baseName : List Char) :
    (pathJoin destDir baseName ∉ fs →
      uniquePath fs destDir baseName = baseName) ∧
      (pathJoin destDir baseName ∈ fs →
        ∃ i, 1 ≤ i ∧ uniquePath fs destDir baseName = candName baseName i ∧
          pathJoin destDir (candName baseName i) ∉ fs ∧
          ∀ j, 1 ≤ j → j < i → pathJoin destDir (candName baseName j) ∈ fs) ∧
      pathJoin destDir (uniquePath fs destDir baseName) ∉ fs ∧
      (∀ m n, m < n →
        moveResult fs destDir baseName m ≠ moveResult fs destDir baseName n) ∧
      (pathJoin destDir baseName ∈ fs → ∀ n, ∃ i j, 1 ≤ i ∧ i < j ∧
        moveResult fs destDir baseName n = candName baseName i ∧
        moveResult fs destDir baseName (n + 1) = candName baseName j) := by
  obtain ⟨h1, h2, h3⟩ := uniquePath_char fs destDir baseName
  refine ⟨h1, h2, h3, ?_, ?_⟩
  · intro m n hmn heq
    have hm : pathJoin destDir (moveResult fs destDir baseName m) ∈
        moveStates fs destDir baseName n :=
      moveStates_sub fs destDir baseName (m + 1) n (by omega)
        (moveResult_path_mem fs destDir baseName m)
    rw [heq] at hm
    exact moveResult_free fs destDir baseName n hm
  · intro hmem n
    have hbase : ∀ k, pathJoin destDir baseName ∈
        moveStates fs destDir baseName k := fun k =>
      moveStates_sub fs destDir baseName 0 k (by omega) hmem
    obtain ⟨i, hi1, hieq, hifree, himin⟩ :=
      (uniquePath_char (moveStates fs destDir baseName n) destDir
        baseName).2.1 (hbase n)
    obtain ⟨j, hj1, hjeq, hjfree, hjmin⟩ :=
      (uniquePath_char (moveStates fs destDir baseName (n + 1)) destDir
        baseName).2.1 (hbase (n + 1))
    refine ⟨i, j, hi1, ?_, hieq, hjeq⟩
    by_cases hij : i = j
    · exfalso
      have hmemi : pathJoin destDir (candName baseName i) ∈
          moveStates fs destDir baseName (n + 1) := by
        have := moveResult_path_mem fs destDir baseName n
        rw [show moveResult fs destDir baseName n = candName baseName i
          from hieq] at this
        exact this
      rw [hij] at hmemi
      exact hjfree hmemi
    · rcases Nat.lt_or_ge i j with hlt | hge
      · exact hlt
      · exfalso
        have hjlt : j < i := by omega
        have := himin j hj1 hjlt
        have hsub := moveStates_sub fs destDir baseName n (n + 1)
          (by omega) this
        exact hjfree hsub

/-- C2 witness: with `report.pdf` and `report_1.pdf` already present, the
computed unique name is `report_2.pdf`. -/
theorem claim_c2_witness :
    pathJoin "d".data "report.pdf".data ∈
        [pathJoin "d".data "report.pdf".data,
          pathJoin "d".data "report_1.pdf".data] ∧
      ∃ i, 1 ≤ i ∧
        uniquePath [pathJoin "d".data "report.pdf".data,
          pathJoin "d".data "report_1.pdf".data] "d".data "report.pdf".data =
          candName "report.pdf".data i ∧
        pathJoin "d".data (candName "report.pdf".data i) ∉
          [pathJoin "d".data "report.pdf".data,
            pathJoin "d".data "report_1.pdf".data] ∧
        ∀ j, 1 ≤ j → j < i →
          pathJoin "d".data (candName "report.pdf".data j) ∈
            [pathJoin "d".data "report.pdf".data,
              pathJoin "d".data "report_1.pdf".data] :=
  ⟨by decide, (claim_c2 [pathJoin "d".data "report.pdf".data,
    pathJoin "d".data "report_1.pdf".data] "d".data "report.pdf".data).2.1
    (by decide)⟩

/-- Filesystem state: the existing file paths and directory paths. -/
structure FSState where
  files : List (List Char)
  dirs : List (List Char)

/-- Failure oracle for the fallible OS calls inside the `try` block:
whether `mkdir` (inside `_ensure_dir`) or `shutil.move` raises, and the
`str(e)` text of the raised exception. -/
structure MoveEnv where
  mkdirFails : Bool
  mkdirMsg : List Char
  renameFails : Bool
  renameMsg : List Char

/-- `models.py::ProcessingResult`. -/
structure ProcessingResult where
  source_path : List Char
  dest_dir : List Char
  dest_filename : List Char
  extracted : ExtractedData
  moved : Bool
  error : Option (List Char)

/-- `mover.py::move_to_destination`: dry-run and missing-source early
returns, then `_ensure_dir`, `_unique_path` and `shutil.move` inside a
`try` whose handler stores `str(e)` on the result.  The state returned
with the result is the filesystem after the call. -/
def move_to_destination (fs : FSState) (env : MoveEnv)
    (source_path dest_dir dest_filename : List Char)
    (extracted : ExtractedData) (dry_run : Bool) :
    FSState × ProcessingResult :=
  let result : ProcessingResult :=
    ⟨source_path, dest_dir, dest_filename, extracted, false, none⟩
  if dry_run then (fs, result)
  else if source_path ∉ fs.files then
    (fs, { result with
      error := some ("Fichier source introuvable: ".data ++ source_path) })
  else if env.mkdirFails then (fs, { result with error := some env.mkdirMsg })
  else
    let fs1 : FSState := { fs with dirs := dest_dir :: fs.dirs }
    if env.renameFails then (fs1, { result with error := some env.renameMsg })
    else
      let finalName := uniquePath (fs1.files ++ fs1.dirs) dest_dir
        dest_filename
      ({ fs1 with
          files := pathJoin dest_dir finalName :: fs1.files.erase source_path },
        { result with dest_filename := finalName, moved := true })

/-- C1.  For every move performed by `move_to_destination`: a result with
`moved = true` has an empty `error` and its destination path exists; every
failure (missing source, directory-creation failure, rename failure)
yields an error captured on the result — the function is total, nothing
is raised — with `moved` still false and the set of files unchanged (in
particular the source file is not deleted); and the captured message is
non-empty whenever the OS exception texts are. -/
theorem claim_c1 (fs : FSState) (env : MoveEnv)
    (s d n : List Char) (ex : ExtractedData) (dr : Bool) :
    ((move_to_destination fs env s d n ex dr).2.moved = true →
      (move_to_destination fs env s d n ex dr).2.error = none ∧
        pathJoin d (move_to_destination fs env s d n ex dr).2.dest_filename ∈
          (move_to_destination fs env s d n ex dr).1.files) ∧
      (∀ msg, (move_to_destination fs env s d n ex dr).2.error = some msg →
        (move_to_destination fs env s d n ex dr).2.moved = false ∧
          (move_to_destination fs env s d n ex dr).1.files = fs.files ∧
          (s ∈ fs.files →
            s ∈ (move_to_destination fs env s d n ex dr).1.files)) ∧
      (env.mkdirMsg ≠ [] → env.renameMsg ≠ [] →
        ∀ msg, (move_to_destination fs env s d n ex dr).2.error = some msg →
          msg ≠ []) ∧
      (dr = false →
        (s ∉ fs.files ∨ env.mkdirFails = true ∨ env.renameFails = true) →
        (move_to_destination fs env s d n ex dr).2.error ≠ none) := by
  unfold move_to_destination
  by_cases hdr : dr = true
  · subst hdr
    simp
  · rw [Bool.not_eq_true] at hdr
    subst hdr
    simp only [Bool.false_eq_true, if_false]
    by_cases hmem : s ∈ fs.files
    · rw [if_neg (by simpa using hmem)]
      by_cases hmk : env.mkdirFails = true
      · rw [if_pos hmk]
        refine ⟨by simp, by simp, ?_, by simp⟩
        intro hm1 _ msg hmsg
        simp at hmsg
        rw [← hmsg]
        exact hm1
      · rw [if_neg (by simpa using hmk)]
        by_cases hrn : env.renameFails = true
        · rw [if_pos hrn]
          refine ⟨by simp, by simp, ?_, by simp⟩
          intro _ hm2 msg hmsg
          simp at hmsg
          rw [← hmsg]
          exact hm2
        · rw [if_neg (by simpa using hrn)]
          refine ⟨?_, by simp, by simp, ?_⟩
          · intro _
            exact ⟨rfl, by simp⟩
          · intro _ hor
            rcases hor with h | h | h
            · exact absurd hmem h
            · exact absurd h (by simpa using hmk)
            · exact absurd h (by simpa using hrn)
    · rw [if_pos (by simpa using hmem)]
      refine ⟨by simp, by simp, ?_, by simp⟩
      intro _ _ msg hmsg
      simp at hmsg
      rw [← hmsg]
      simp [String.data]

/-- C1 witness: a rename failure at a concrete filesystem; the error is
captured, the move flag stays false and the file list is untouched. -/
theorem claim_c1_witness :
    ((move_to_destination ⟨["src.pdf".data], []⟩
        ⟨false, "boom".data, true, "disk full".data⟩ "src.pdf".data
        "dest".data "out.pdf".data exWeak false).2.error =
          some "disk full".data) ∧
      ((move_to_destination ⟨["src.pdf".data], []⟩
          ⟨false, "boom".data, true, "disk full".data⟩ "src.pdf".data
          "dest".data "out.pdf".data exWeak false).2.moved = false ∧
        (move_to_destination ⟨["src.pdf".data], []⟩
            ⟨false, "boom".data, true, "disk full".data⟩ "src.pdf".data
            "dest".data "out.pdf".data exWeak false).1.files =
          (⟨["src.pdf".data], []⟩ : FSState).files ∧
        ("src.pdf".data ∈ (⟨["src.pdf".data], []⟩ : FSState).files →
          "src.pdf".data ∈ (move_to_destination ⟨["src.pdf".data], []⟩
            ⟨false, "boom".data, true, "disk full".data⟩ "src.pdf".data
            "dest".data "out.pdf".data exWeak false).1.files)) :=
  ⟨by decide,
    (claim_c1 ⟨["src.pdf".data], []⟩ ⟨false, "boom".data, true,
      "disk full".data⟩ "src.pdf".data "dest".data "out.pdf".data exWeak
      false).2.1 "disk full".data (by decide)⟩

/-! ## `watcher.py::StableFileHandler._check_pending` (claim C9)

The pending dict `path -> (last_size, last_check_time)` is modelled as an
association list with distinct keys (a `Nodup` hypothesis); monotonic
times are rationals; `path.exists()` / `stat().st_size` are one snapshot
function `fsSize` (`none` models a missing file or an `OSError`);
`_should_ignore` at dispatch time is the predicate `ignore`.  The
source's single pass building `to_remove` / `to_process`, updating
changed entries in place and finally popping `to_remove` is modelled by
the three passes below, which agree with it on distinct keys. -/

/-- Entries popped at the end of the check: missing files and entries
dispatched as stable. -/
def toRemove (pending : List (String × Nat × ℚ))
    (fsSize : String → Option Nat) (now stab : ℚ) : List String :=
  pending.filterMap fun e =>
    match fsSize e.1 with
    | none => some e.1
    | some size =>
      if size ≠ e.2.1 then none
      else if stab ≤ now - e.2.2 then some e.1 else none

/-- Entries queued for dispatch: size unchanged and elapsed time since
the last observed change at least the stability duration. -/
def toProcess (pending : List (String × Nat × ℚ))
    (fsSize : String → Option Nat) (now stab : ℚ) : List String :=
  pending.filterMap fun e =>
    match fsSize e.1 with
    | none => none
    | some size =>
      if size ≠ e.2.1 then none
      else if stab ≤ now - e.2.2 then some e.1 else none

/-- The in-place updates `self._pending[path] = (size, now)` for entries
whose size changed (the debounce window restarts). -/
def updatedPending (pending : List (String × Nat × ℚ))
    (fsSize : String → Option Nat) (now : ℚ) : List (String × Nat × ℚ) :=
  pending.map fun e =>
    match fsSize e.1 with
    | none => e
    | some size => if size ≠ e.2.1 then (e.1, size, now) else e

/-- One `_check_pending` pass: the new pending map and the list of paths
for which the callback fires (each still existing and not ignored). -/
def checkPending (pending : List (String × Nat × ℚ))
    (fsSize : String → Option Nat) (ignore : String → Bool) (now stab : ℚ) :
    List (String × Nat × ℚ) × List String :=
  let rem := toRemove pending fsSize now stab
  ((updatedPending pending fsSize now).filter fun e => !(rem.contains e.1),
    (toProcess pending fsSize now stab).filter fun p =>
      (fsSize p).isSome && !(ignore p))

theorem key_unique {pending : List (String × Nat × ℚ)}
    (hnd : (pending.map Prod.fst).Nodup) {e1 e2 : String × Nat × ℚ}
    (h1 : e1 ∈ pending) (h2 : e2 ∈ pending) (h : e1.1 = e2.1) : e1 = e2 := by
  induction pending with
  | nil => simp at h1
  | cons a t ih =>
    rw [List.map_cons, List.nodup_cons] at hnd
    rcases List.mem_cons.mp h1 with rfl | h1t
    · rcases List.mem_cons.mp h2 with rfl | h2t
      · rfl
      · exact absurd (h ▸ List.mem_map_of_mem Prod.fst h2t) hnd.1
    · rcases List.mem_cons.mp h2 with rfl | h2t
      · exact absurd (h ▸ List.mem_map_of_mem Prod.fst h1t) hnd.1
      · exact ih hnd.2 h1t h2t

theorem mem_toProcess {pending : List (String × Nat × ℚ)}
    {fsSize : String → Option Nat} {now stab : ℚ} {p : String}
    (h : p ∈ toProcess pending fsSize now stab) :
    ∃ e ∈ pending, e.1 = p ∧ fsSize p = some e.2.1 ∧ stab ≤ now - e.2.2 := by
  obtain ⟨e, hmem, hf⟩ := List.mem_filterMap.mp h
  cases hfs : fsSize e.1 with
  | none => simp [hfs] at hf
  | some size =>
    simp only [hfs] at hf
    by_cases hsz : size ≠ e.2.1
    · rw [if_pos hsz] at hf; simp at hf
    · rw [if_neg hsz] at hf
      push_neg at hsz
      by_cases hel : stab ≤ now - e.2.2
      · rw [if_pos hel] at hf
        simp at hf
        subst hf
        exact ⟨e, hmem, rfl, by rw [hfs, hsz], hel⟩
      · rw [if_neg hel] at hf; simp at hf

theorem mem_toRemove_of_missing {pending : List (String × Nat × ℚ)}
    {fsSize : String → Option Nat} {now stab : ℚ}
    {e : String × Nat × ℚ} (hmem : e ∈ pending) (hfs : fsSize e.1 = none) :
    e.1 ∈ toRemove pending fsSize now stab :=
  List.mem_filterMap.mpr ⟨e, hmem, by rw [hfs]⟩

/-- C9.  In one periodic check, for each tracked entry `(p, sz, t)`:
a missing file is dropped from tracking and not dispatched; a file whose
current size differs from the recorded size is not dispatched and its
entry is reset to the new size with timestamp `now` (the debounce window
restarts); and a path is dispatched only when its size is unchanged and
the elapsed time since the last observed change is at least the
stability duration. -/
theorem claim_c9 (pending : List (String × Nat × ℚ))
    (fsSize : String → Option Nat) (ignore : String → Bool) (now stab : ℚ)
    (p : String) (sz : Nat) (t : ℚ)
    (hmem : (p, sz, t) ∈ pending) (hnd : (pending.map Prod.fst).Nodup) :
    (fsSize p = none →
      (∀ e ∈ (checkPending pending fsSize ignore now stab).1, e.1 ≠ p) ∧
        p ∉ (checkPending pending fsSize ignore now stab).2) ∧
      (∀ s, fsSize p = some s → s ≠ sz →
        p ∉ (checkPending pending fsSize ignore now stab).2 ∧
          (p, s, now) ∈ (checkPending pending fsSize ignore now stab).1) ∧
      (p ∈ (checkPending pending fsSize ignore now stab).2 →
        fsSize p = some sz ∧ stab ≤ now - t) := by
  have hdisp_sub : ∀ q, q ∈ (checkPending pending fsSize ignore now stab).2 →
      q ∈ toProcess pending fsSize now stab ∧ (fsSize q).isSome = true := by
    intro q hq
    have := List.mem_filter.mp hq
    refine ⟨this.1, ?_⟩
    have h2 := this.2
    simp only [Bool.and_eq_true] at h2
    exact h2.1
  refine ⟨?_, ?_, ?_⟩
  · intro hfs
    constructor
    · intro e he hep
      have hf := List.mem_filter.mp he
      obtain ⟨e0, he0, hmapped⟩ := List.mem_map.mp hf.1
      have hkey : e0.1 = e.1 := by
        cases hfs0 : fsSize e0.1 with
        | none => rw [← hmapped]; simp [hfs0]
        | some size =>
          rw [← hmapped]
          by_cases hsz : size ≠ e0.2.1 <;> simp [hfs0, hsz]
      have he0p : e0.1 = p := by rw [hkey, hep]
      have hrem : e0.1 ∈ toRemove pending fsSize now stab :=
        mem_toRemove_of_missing he0 (by rw [he0p]; exact hfs)
      have := hf.2
      rw [he0p] at hrem
      rw [hep] at this
      rw [Bool.not_eq_true', ← Bool.not_eq_true] at this
      exact this (contains_mem.mpr hrem)
    · intro hq
      have := (hdisp_sub p hq).2
      rw [hfs] at this
      simp at this
  · intro s hfs hne
    constructor
    · intro hq
      obtain ⟨e, he, hep, hesz, -⟩ := mem_toProcess (hdisp_sub p hq).1
      have : e = (p, sz, t) := key_unique hnd he hmem hep
      subst this
      simp only at hesz
      rw [hfs] at hesz
      simp at hesz
      exact hne (by omega)
    · have hmap : (p, s, now) ∈ updatedPending pending fsSize now := by
        refine List.mem_map.mpr ⟨(p, sz, t), hmem, ?_⟩
        simp only [hfs]
        rw [if_pos (by simpa using hne)]
      refine List.mem_filter.mpr ⟨hmap, ?_⟩
      rw [Bool.not_eq_true', ← Bool.not_eq_true]
      intro hc
      obtain ⟨e, he, hfe⟩ := List.mem_filterMap.mp (contains_mem.mp hc)
      cases hfse : fsSize e.1 with
      | none =>
        simp only [hfse] at hfe
        simp at hfe
        subst hfe
        rw [hfse] at hfs
        simp at hfs
      | some size =>
        simp only [hfse] at hfe
        by_cases hsz : size ≠ e.2.1
        · rw [if_pos hsz] at hfe; simp at hfe
        · rw [if_neg hsz] at hfe
          by_cases hel : stab ≤ now - e.2.2
          · rw [if_pos hel] at hfe
            simp at hfe
            have : e = (p, sz, t) := key_unique hnd he hmem hfe
            subst this
            simp only at hfse hsz
            rw [hfs] at hfse
            simp at hfse
            push_neg at hsz
            exact hne (by omega)
          · rw [if_neg hel] at hfe; simp at hfe
  · intro hq
    obtain ⟨e, he, hep, hesz, hel⟩ := mem_toProcess (hdisp_sub p hq).1
    have : e = (p, sz, t) := key_unique hnd he hmem hep
    subst this
    exact ⟨hesz, hel⟩

/-- C9 witness: a tracked file that has disappeared is dropped from
tracking without dispatch. -/
theorem claim_c9_witness :
    (("gone.pdf", 5, (0 : ℚ)) ∈ [("gone.pdf", 5, (0 : ℚ))]) ∧
      (∀ e ∈ (checkPending [("gone.pdf", 5, (0 : ℚ))] (fun _ => none)
          (fun _ => false) 1 2).1, e.1 ≠ "gone.pdf") ∧
        "gone.pdf" ∉ (checkPending [("gone.pdf", 5, (0 : ℚ))] (fun _ => none)
          (fun _ => false) 1 2).2 :=
  ⟨by decide, (claim_c9 [("gone.pdf", 5, (0 : ℚ))] (fun _ => none)
    (fun _ => false) 1 2 "gone.pdf" 5 0 (by decide) (by decide)).1 rfl⟩

/-! ## `rules.py` placeholders and templates (claim C10) -/

/-- Python `str.strip()` (ASCII whitespace). -/
def pyStrip (s : String) : String := ⟨stripBoth isSp s.data⟩

/-- Python `x or default` on an optional string (`None` and `""` are
falsy). -/
def orElseStr (o : Option String) (d : String) : String :=
  match o with
  | some s => if s = "" then d else s
  | none => d

/-- Zero-padded two digits (`%m`, `%d`). -/
def pad2 (n : Nat) : List Char := if n < 10 then '0' :: decimalL n else decimalL n

/-- Zero-padded four digits (`%Y`). -/
def pad4 (n : Nat) : List Char :=
  List.replicate (4 - (decimalL n).length) '0' ++ decimalL n

def strftimeY (d : PyDate) : String := ⟨pad4 d.year⟩

def strftimeM (d : PyDate) : String := ⟨pad2 d.month⟩

def strftimeD (d : PyDate) : String := ⟨pad2 d.day⟩

/-- `classify.py::ensure_type_doc` / `get_type_doc_slug` as the pure
lookup they cache on the data object. -/
def typeDocSlug (e : ExtractedData) : String :=
  if e.type_document = "facture_fournisseur" then "FACT"
  else if e.type_document = "avoir" then "AVR"
  else if e.type_document = "devis" then "DEVIS"
  else if e.type_document = "courrier" then "COURRIER"
  else if e.type_document = "plan" then "PLAN"
  else if e.type_document = "impots" then "IMPOTS"
  else "INCONNU"

/-- Python `str.replace(pat, rep)`: all non-overlapping occurrences, left
to right (fuel-structural; an empty pattern never occurs at the call
sites and is modelled as the identity). -/
def replaceAllF (pat rep : List Char) : Nat → List Char → List Char
  | 0, l => l
  | fuel + 1, l =>
    match l with
    | [] => []
    | c :: r =>
      if isPrefL pat (c :: r) then
        rep ++ replaceAllF pat rep fuel ((c :: r).drop pat.length)
      else c :: replaceAllF pat rep fuel r

def replaceAll (l pat rep : List Char) : List Char :=
  if pat = [] then l else replaceAllF pat rep l.length l

/-- `rules.py::_format_montant`: `f"{m:.2f}"` (modelled on exact
rationals, rounding to hundredths), then `.replace(".", ",")` then
`.replace(",", "_")` — the net effect turns the decimal mark into an
underscore. -/
def formatMontant : Option ℚ → String
  | none => "0"
  | some m =>
    let c : ℤ := round (m * 100)
    let digits := (if c < 0 then ['-'] else []) ++
      decimalL (c.natAbs / 100) ++ '.' :: pad2 (c.natAbs % 100)
    ⟨replaceAll (replaceAll digits ".".data ",".data) ",".data "_".data⟩

/-- Python `dict` update `out[cle] = val`: replace in place when the key
exists (keeping its position), else append. -/
def upsert (kvs : List (String × String)) (k v : String) :
    List (String × String) :=
  if kvs.any (fun kv => kv.1 == k) then
    kvs.map fun kv => if kv.1 == k then (k, v) else kv
  else kvs ++ [(k, v)]

/-- The configuration fragment read by `build_placeholders`: the
`cles_personnalisees` items as (key, default value) pairs (dict- and
pair-shaped items both reduce to this after the `get`/`str` accesses). -/
structure RouteConfig where
  cles_personnalisees : List (String × String)

/-- `rules.py::build_placeholders` (insertion-ordered association list,
matching the Python dict). -/
def build_placeholders (e : ExtractedData) (config : Option RouteConfig) :
    List (String × String) :=
  let yyyy := match e.date_doc with | some d => strftimeY d | none => "0000"
  let mm := match e.date_doc with | some d => strftimeM d | none => "00"
  let dd := match e.date_doc with | some d => strftimeD d | none => "00"
  let fournisseur_slug := slugify (pyStrip (orElseStr e.fournisseur "Inconnu")) 60
  let numero_slug := slugify (pyStrip (orElseStr e.numero_facture "N")) 40
  let montant_str := formatMontant e.montant_ttc
  let type_doc := typeDocSlug e
  let impots_slug :=
    if type_doc = "IMPOTS" then fournisseur_slug else slugify "impots" 60
  let out := [("fournisseur", fournisseur_slug), ("client", fournisseur_slug),
    ("impots", impots_slug), ("YYYY", yyyy), ("MM", mm), ("DD", dd),
    ("numero", numero_slug), ("montant", montant_str), ("type_doc", type_doc)]
  match config with
  | none => out
  | some cfg =>
    cfg.cles_personnalisees.foldl (fun acc item =>
      let cle := pyStrip item.1
      let val := pyStrip item.2
      if cle ≠ "" then upsert acc cle (if val ≠ "" then val else cle)
      else acc) out

/-- `re.sub(r"\x7b[^\x7d]+\x7d", "", ·)`: drop the remaining
brace-delimited tokens (fuel-structural). -/
def removeBraceGroupsF : Nat → List Char → List Char
  | 0, l => l
  | fuel + 1, l =>
    match l with
    | [] => []
    | c :: r =>
      if c = '\x7b' then
        let pre := r.takeWhile fun x => !(x == '\x7d')
        if pre ≠ [] ∧ pre.length < r.length then
          removeBraceGroupsF fuel (r.drop (pre.length + 1))
        else c :: removeBraceGroupsF fuel r
      else c :: removeBraceGroupsF fuel r

def removeBraceGroups (l : List Char) : List Char :=
  removeBraceGroupsF l.length l

/-- `rules.py::apply_template`: literal `\x7bkey\x7d` substitution in
dict order, removal of unresolved tokens, then
`.strip("/").strip("\\").strip()`. -/
def apply_template (template : String)
    (placeholders : List (String × String)) : String :=
  let result := placeholders.foldl (fun acc kv =>
    replaceAll acc ('\x7b' :: (kv.1.data ++ ['\x7d'])) kv.2.data) template.data
  let result := removeBraceGroups result
  ⟨stripBoth isSp (stripBoth (· == '\\') (stripBoth (· == '/') result))⟩

/-- `rules.py::build_destination_filename`. -/
def build_destination_filename (modele_nom_fichier : String)
    (e : ExtractedData) (config : Option RouteConfig) : String :=
  let name := apply_template modele_nom_fichier (build_placeholders e config)
  if !(endsWithL (lowerL name.data) ".pdf".data) then
    ⟨name.data ++ ".pdf".data⟩
  else name

theorem isPrefL_self_append (l m : List Char) : isPrefL l (l ++ m) = true := by
  induction l with
  | nil => rfl
  | cons a t ih => simp [isPrefL, ih]

theorem endsWithL_append_self (a b : List Char) :
    endsWithL (a ++ b) b = true := by
  unfold endsWithL
  rw [List.reverse_append]
  exact isPrefL_self_append _ _

/-- C10.  For every filename template, extracted data and configuration,
the built destination name ends with `".pdf"` (case-insensitively: the
suffix is appended exactly when the rendered name does not already end
with `".pdf"` after lower-casing), and a template rendering to the empty
string produces exactly `".pdf"`. -/
theorem claim_c10 (modele : String) (e : ExtractedData)
    (config : Option RouteConfig) :
    endsWithL (lowerL (build_destination_filename modele e config).data)
        ".pdf".data = true ∧
      (apply_template modele (build_placeholders e config) = "" →
        build_destination_filename modele e config = ".pdf") := by
  constructor
  · unfold build_destination_filename
    by_cases h : endsWithL
        (lowerL (apply_template modele (build_placeholders e config)).data)
        ".pdf".data = true
    · rw [if_neg (by simp [h])]
      exact h
    · rw [if_pos (by simp [Bool.not_eq_true] at h; simp [h])]
      show endsWithL (lowerL ((apply_template modele
        (build_placeholders e config)).data ++ ".pdf".data)) ".pdf".data = true
      unfold lowerL
      rw [List.map_append]
      have hlow : List.map lowerC ".pdf".data = ".pdf".data := by decide
      rw [hlow]
      exact endsWithL_append_self _ _
  · intro hname
    unfold build_destination_filename
    rw [hname]
    rw [if_pos (by decide)]
    rfl

/-- C10 witness: the empty template renders to the empty string, and the
built name is exactly `".pdf"`. -/
theorem claim_c10_witness :
    apply_template "" (build_placeholders exWeak none) = "" ∧
      build_destination_filename "" exWeak none = ".pdf" :=
  ⟨by decide, (claim_c10 "" exWeak none).2 (by decide)⟩

end Scan
